import Mathlib

/-!
# vmandump: man page extraction from xbps packages

A shallow embedding of `main.go` and `vendor/github.com/ebfe/v/xbps/xbps.go`.

Go strings are byte sequences.  They are modelled as lists whose elements
stand for the bytes of the string; every operation of the program that looks
at a byte only compares it with the separator or with the dot, and slices are
taken at byte offsets, which are list offsets here.

Calls into the operating system (`os.Symlink`, `os.Link`, `os.Create`,
`fmt.Printf`, ...) are recorded as a trace of requested actions: their
results never change which later actions are requested.  An out of range
slice expression, on which Go panics, is an explicit outcome.
-/

set_option autoImplicit false
set_option linter.dupNamespace false

namespace Vmandump

/-- A Go `string`: a sequence of bytes. -/
abbrev GoString := List Char

/-- The constant `prefix` of `main.go`. -/
def pfx : GoString := "/usr/share/man/".toList

/-- The function `strings.HasPrefix`:
`len(s) >= len(prefix) && s[:len(prefix)] == prefix`. -/
def HasPrefix (s p : GoString) : Bool :=
  decide (p.length ≤ s.length) && (s.take p.length == p)

/-! ## The manifest (`xbps.Files`) and `matchFiles` -/

/-- An element of `Files.Dirs`. -/
structure DirEntry where
  Name : GoString
  deriving DecidableEq, Repr

/-- An element of `Files.Files`. -/
structure FileEntry where
  Name : GoString
  MTime : Int
  Sha256 : GoString
  deriving DecidableEq, Repr

/-- An element of `Files.Links`. -/
structure LinkEntry where
  Name : GoString
  MTime : Int
  Target : GoString
  deriving DecidableEq, Repr

/-- The struct `xbps.Files`. -/
structure Files where
  Dirs : List DirEntry
  Files : List FileEntry
  Links : List LinkEntry
  deriving DecidableEq, Repr

/-- The function `matchFiles` of `main.go`: two loops that append to `m`. -/
def matchFiles (files : Files) : List GoString :=
  let m : List GoString := []
  let m := files.Files.foldl
    (fun m file => if HasPrefix file.Name pfx then m ++ [file.Name] else m) m
  let m := files.Links.foldl
    (fun m link => if HasPrefix link.Name pfx then m ++ [link.Name] else m) m
  m

/-! ## `path/filepath` on Unix: `Clean`, `Join`, `Dir`

The separator is `/` and there is no volume name.  `Clean` writes through a
`lazybuf`; the model keeps the bytes written so far (`out`, with `out.w` its
length) and the part of the path not yet read (`path[r:]`). -/

/-- The inner loop of the `..` case of `Clean`:
`for out.w > dotdot && !os.IsPathSeparator(out.index(out.w)) { out.w-- }`,
as a function of `out.w`. -/
def backtrackLoop (out : GoString) (dotdot : Nat) : Nat → Nat
  | 0 => 0
  | w + 1 =>
    if dotdot < w + 1 ∧ out.get? (w + 1) ≠ some '/' then backtrackLoop out dotdot w
    else w + 1

/-- The `..` case of `Clean` when `out.w > dotdot`: `out.w--`, the inner loop,
and the buffer cut at the new `out.w`. -/
def backtrack (out : GoString) (dotdot : Nat) : GoString :=
  out.take (backtrackLoop out dotdot (out.length - 1))

/-- The main loop `for r < n` of `Clean`, on `rest = path[r:]`.  Every
iteration reads at least one byte, so `len(path)` iterations are enough;
the first argument bounds the number of iterations. -/
def cleanLoop (rooted : Bool) : Nat → GoString → GoString → Nat → GoString
  | 0, _, out, _ => out
  | _ + 1, [], out, _ => out
  | fuel + 1, c :: tl, out, dotdot =>
    if c = '/' then
      -- empty path element
      cleanLoop rooted fuel tl out dotdot
    else if c = '.' ∧ (tl = [] ∨ tl.head? = some '/') then
      -- . element
      cleanLoop rooted fuel tl out dotdot
    else if c = '.' ∧ tl.head? = some '.' ∧ (tl.tail = [] ∨ tl.tail.head? = some '/') then
      -- .. element: remove to last separator
      if dotdot < out.length then
        cleanLoop rooted fuel tl.tail (backtrack out dotdot) dotdot
      else if !rooted then
        let out1 := if 0 < out.length then out ++ ['/'] else out
        let out2 := out1 ++ ['.', '.']
        cleanLoop rooted fuel tl.tail out2 out2.length
      else
        cleanLoop rooted fuel tl.tail out dotdot
    else
      -- real path element: add slash if needed, copy element
      let out1 :=
        if (rooted && out.length != 1) || (!rooted && out.length != 0) then out ++ ['/']
        else out
      cleanLoop rooted fuel ((c :: tl).dropWhile (fun b => b != '/'))
        (out1 ++ (c :: tl).takeWhile (fun b => b != '/')) dotdot

/-- The function `filepath.Clean`. -/
def Clean (path : GoString) : GoString :=
  if path = [] then ['.']
  else
    let rooted : Bool := path.head? == some '/'
    let n := path.length
    let out :=
      if rooted then cleanLoop rooted n path.tail ['/'] 1
      else cleanLoop rooted n path [] 0
    -- Turn empty string into "."
    if out.length = 0 then ['.'] else out

/-- The function `filepath.Join` for two elements: the elements from the first
non-empty one on are joined with the separator and cleaned. -/
def Join (a b : GoString) : GoString :=
  if a ≠ [] then Clean (a ++ '/' :: b)
  else if b ≠ [] then Clean b
  else []

/-- The scan of `filepath.Dir`:
`i := len(path) - 1; for i >= 0 && !os.IsPathSeparator(path[i]) { i-- }`,
as a function of `i + 1`, returning the final `i + 1`. -/
def dirScan (path : GoString) : Nat → Nat
  | 0 => 0
  | i + 1 => if path.get? i ≠ some '/' then dirScan path i else i + 1

/-- The function `filepath.Dir`: `Clean(path[:i+1])`. -/
def Dir (path : GoString) : GoString :=
  Clean (path.take (dirScan path path.length))

/-! ## The archive reader and `extract` -/

/-- A Go `error` value. -/
inductive Error where
  /-- The value `errors.New("xbps: missing index.plist in repodata")`. -/
  | missingIndex
  /-- The value `errors.New("xbps: no 'files.plist' in package")`. -/
  | noFilesPlist
  /-- An error of a library: decompression, archive format, decoding, I/O. -/
  | external (msg : GoString)
  deriving DecidableEq, Repr

/-- The constant `tar.TypeReg`. -/
def TypeReg : Char := '0'
/-- The constant `tar.TypeLink`: a hard link. -/
def TypeLink : Char := '1'
/-- The constant `tar.TypeSymlink`. -/
def TypeSymlink : Char := '2'

/-- The fields of `tar.Header` that `extract` reads. -/
structure Header where
  Name : GoString
  Typeflag : Char
  Linkname : GoString
  deriving DecidableEq, Repr

/-- A `tar.Reader`: the headers `Next` returns one after the other, and what
it returns after the last one, `io.EOF` (`none`) or another error. -/
structure TarReader where
  entries : List Header
  final : Option Error
  deriving DecidableEq, Repr

/-- What `extract` asks of the operating system and prints, in order. -/
inductive Action where
  /-- The calls `os.Stat(filepath.Dir(outpath))` and, if that does not exist,
  `os.MkdirAll(filepath.Dir(outpath), 0755)`. -/
  | EnsureDir (dir : GoString)
  /-- The line `fmt.Printf("\t%s\n", outpath)`. -/
  | Printf (outpath : GoString)
  /-- The diagnostic `vmandump: skipping symlink: %q -> %q`. -/
  | SkippingSymlink (outpath linkname : GoString)
  /-- The call `os.Symlink(hdr.Linkname, outpath)`. -/
  | Symlink (oldname newname : GoString)
  /-- The diagnostic `vmandump: skipping hardlink: %q -> %q`. -/
  | SkippingHardlink (outpath linkname : GoString)
  /-- The call `os.Link(target, outpath)`. -/
  | Link (oldname newname : GoString)
  /-- The call `os.Create(outpath)` and, if it succeeds, `io.Copy(f, ar)` and
  `f.Close()`. -/
  | CreateAndCopy (outpath : GoString)
  /-- The diagnostic `vmandump: skipping unknown type %q at %q`. -/
  | SkippingUnknownType (typeflag : Char) (name : GoString)
  deriving DecidableEq, Repr

/-- The slice expression `s[k:]`; Go panics (`none`) when `k > len(s)`. -/
def sliceFrom (s : GoString) (k : Nat) : Option GoString :=
  if k ≤ s.length then some (s.drop k) else none

/-- The first lines of the loop body of `extract`:
`fname := hdr.Name; if strings.HasPrefix(fname, ".") { fname = fname[1:] }`. -/
def normalize (name : GoString) : GoString :=
  if HasPrefix name ['.'] then name.drop 1 else name

/-- The `switch hdr.Typeflag` of `extract`, with `outpath` computed. -/
def dispatch (outdir : GoString) (hdr : Header) (outpath : GoString) :
    Option (List Action) :=
  if hdr.Typeflag = TypeSymlink then
    if Dir hdr.Linkname ≠ ['.'] then
      some [Action.SkippingSymlink outpath hdr.Linkname]
    else
      some [Action.Symlink hdr.Linkname outpath]
  else if hdr.Typeflag = TypeLink then
    if !HasPrefix hdr.Linkname ('.' :: pfx) then
      some [Action.SkippingHardlink outpath hdr.Linkname]
    else
      match sliceFrom hdr.Linkname (pfx.length + 1) with
      | none => none
      | some t => some [Action.Link (Join outdir t) outpath]
  else if hdr.Typeflag = TypeReg then
    some [Action.CreateAndCopy outpath]
  else
    some [Action.SkippingUnknownType hdr.Typeflag hdr.Name]

/-- The loop body of `extract` for an entry found in `what`, from the
computation of `outpath` on: the actions requested, or `none` when a slice
expression is out of range. -/
def extractEntry (outdir : GoString) (hdr : Header) : Option (List Action) :=
  match sliceFrom hdr.Name (pfx.length + 1) with
  | none => none
  | some s =>
    let outpath := Join outdir s
    match dispatch outdir hdr outpath with
    | none => none
    | some acts => some (Action.EnsureDir (Dir outpath) :: Action.Printf outpath :: acts)

/-- How a call of `extract` ends. -/
inductive Outcome where
  /-- The call returned `nil` (`none`) or an error. -/
  | returned (err : Option Error)
  /-- The call panicked on a slice out of range. -/
  | panicked
  deriving DecidableEq, Repr

/-- The result of `extract`: how it ended, the map `what` at that point, and
the actions requested up to it. -/
structure ExtractResult where
  outcome : Outcome
  what : List GoString
  trace : List Action
  deriving DecidableEq, Repr

/-- The function `extract` of `main.go`.  The map `what` (a set of strings) is
the list of its keys: `len(what) != 0` is `what ≠ []`, the lookup is
membership, and `delete(what, fname)` removes every copy of the key.  The
argument `acc` is the trace so far. -/
def extractLoop (outdir : GoString) (final : Option Error) :
    List Header → List GoString → List Action → ExtractResult
  | [], what, acc =>
    if what = [] then ⟨.returned none, what, acc⟩
    else
      match final with
      | none => ⟨.returned none, what, acc⟩
      | some e => ⟨.returned (some e), what, acc⟩
  | hdr :: rest, what, acc =>
    if what = [] then ⟨.returned none, what, acc⟩
    else
      let fname := normalize hdr.Name
      if fname ∉ what then extractLoop outdir final rest what acc
      else
        let what1 := what.filter (fun k => k ≠ fname)
        match extractEntry outdir hdr with
        | none => ⟨.panicked, what1, acc⟩
        | some acts => extractLoop outdir final rest what1 (acc ++ acts)

/-- The function `extract` of `main.go`, with the global `outdir` as an
argument. -/
def extract (outdir : GoString) (ar : TarReader) (what : List GoString) : ExtractResult :=
  extractLoop outdir ar.final ar.entries what []

/-! ## `xbps.ParseRepodata` and `xbps.ReadFiles` -/

/-- The fields of `xbps.Package` that `main.go` reads, and the declared size;
the other fields of the struct are decoded and never looked at. -/
structure Package where
  Arch : GoString
  Sha256 : GoString
  Size : Nat
  Pkgver : GoString
  deriving DecidableEq, Repr

/-- The type `xbps.Index`, a `map[string]Package`: its key/value pairs, in
the order in which a `range` loop visits them. -/
abbrev Index := List (GoString × Package)

/-- The struct `xbps.MetaData`. -/
structure MetaData where
  PubKey : GoString
  PubKeySize : Int
  SignatureBy : GoString
  SignatureType : GoString
  deriving DecidableEq, Repr

/-- The decoder `plist.Unmarshal` of the external package `go-plist`, at the
three types the program decodes. -/
structure Codec where
  unmarshalIndex : GoString → Except Error Index
  unmarshalMeta : GoString → Except Error MetaData
  unmarshalFiles : GoString → Except Error Files

/-- An entry of an archive as the readers of `xbps.go` see it: the header and
the outcome of `ioutil.ReadAll` on its payload. -/
structure Entry where
  hdr : Header
  body : Except Error GoString

/-- A compressed archive: the outcome of opening the decompressor
(`gzip.NewReader`, `xz.NewReader`), the entries of the archive inside, and
what `Next` returns after the last entry (`none` for `io.EOF`). -/
structure Archive where
  decompress : Option Error
  entries : List Entry
  final : Option Error

/-- The function `parseIndex`. -/
def parseIndex (codec : Codec) (r : Except Error GoString) : Except Error Index :=
  match r with
  | .error e => .error e
  | .ok buf =>
    match codec.unmarshalIndex buf with
    | .error e => .error e
    | .ok index => .ok index

/-- The function `parseMetaData`; the result `none` is the `nil` pointer. -/
def parseMetaData (codec : Codec) (r : Except Error GoString) :
    Except Error (Option MetaData) :=
  match r with
  | .error e => .error e
  | .ok buf =>
    -- dummy index-meta.plist in local repos....
    if buf = "DEADBEEF".toList then .ok none
    else
      match codec.unmarshalMeta buf with
      | .error e => .error e
      | .ok md => .ok (some md)

/-- The loop of `ParseRepodata`, with its variables `meta`, `index` and
`haveIndex`, and the lines after it. -/
def parseRepodataLoop (codec : Codec) (final : Option Error) :
    List Entry → Option MetaData → Index → Bool → Except Error (Option MetaData × Index)
  | [], meta, index, haveIndex =>
    match final with
    | some e => .error e
    | none => if !haveIndex then .error .missingIndex else .ok (meta, index)
  | e :: rest, meta, index, haveIndex =>
    match (if e.hdr.Name = "index-meta.plist".toList then parseMetaData codec e.body
           else .ok meta) with
    | .error err => .error err
    | .ok meta1 =>
      if e.hdr.Name = "index.plist".toList then
        match parseIndex codec e.body with
        | .error err => .error err
        | .ok index1 => parseRepodataLoop codec final rest meta1 index1 true
      else parseRepodataLoop codec final rest meta1 index haveIndex

/-- The function `xbps.ParseRepodata`. -/
def ParseRepodata (codec : Codec) (r : Archive) : Except Error (Option MetaData × Index) :=
  match r.decompress with
  | some e => .error e
  | none => parseRepodataLoop codec r.final r.entries none [] false

/-- The function `parseFiles`. -/
def parseFiles (codec : Codec) (r : Except Error GoString) : Except Error Files :=
  match r with
  | .error e => .error e
  | .ok buf =>
    match codec.unmarshalFiles buf with
    | .error e => .error e
    | .ok f => .ok f

/-- The loop of `xbps.ReadFiles` and the line after it. -/
def readFilesLoop (codec : Codec) (final : Option Error) : List Entry → Except Error Files
  | [] =>
    match final with
    | some e => .error e
    | none => .error .noFilesPlist
  | e :: rest =>
    if e.hdr.Name = "./files.plist".toList then parseFiles codec e.body
    else readFilesLoop codec final rest

/-- The function `xbps.ReadFiles`. -/
def ReadFiles (codec : Codec) (r : Archive) : Except Error Files :=
  match r.decompress with
  | some e => .error e
  | none => readFilesLoop codec r.final r.entries

/-! ## `process` and `main` -/

/-- The type `state` of `main.go`, a `map[string][]string`. -/
abbrev State := GoString → Option (List GoString)

/-- The empty map `state{}`. -/
def emptyState : State := fun _ => none

/-- The assignment `s[k] = v` on a map. -/
def State.set (s : State) (k : GoString) (v : List GoString) : State :=
  fun x => if x = k then some v else s x

/-- What the program reads from outside: the decoder, and the files it opens.
The outer `Except` is the outcome of `os.Open`. -/
structure World where
  codec : Codec
  openFile : GoString → Except Error Archive

/-- How a call of `process` ends. -/
inductive ProcOutcome where
  /-- The call returned a list of paths and a `nil` error. -/
  | ok (files : List GoString)
  /-- The call returned an error. -/
  | error (e : Error)
  /-- The call panicked. -/
  | panicked
  deriving DecidableEq, Repr

/-- The function `process` of `main.go`, with the actions `extract` requested. -/
def process (w : World) (outdir base : GoString) (pkg : Package) :
    ProcOutcome × List Action :=
  let pkgpath := Join base (pkg.Pkgver ++ ".".toList ++ pkg.Arch ++ ".xbps".toList)
  match w.openFile pkgpath with
  | .error e => (.error e, [])
  | .ok fpkg =>
    match ReadFiles w.codec fpkg with
    | .error e => (.error e, [])
    | .ok files =>
      let manpages := matchFiles files
      if manpages.length = 0 then (.ok [], [])
      else
        let want := manpages
        match fpkg.decompress with
        | some e => (.error e, [])
        | none =>
          let r := extract outdir ⟨fpkg.entries.map Entry.hdr, fpkg.final⟩ want
          match r.outcome with
          | .panicked => (.panicked, r.trace)
          | .returned (some e) => (.error e, r.trace)
          | .returned none => (.ok manpages, r.trace)

/-- A call of `process` made by `main`. -/
structure Call where
  base : GoString
  pkg : Package
  deriving DecidableEq, Repr

/-- The loop `for _, info := range rindex` of `main`: the map `next` and the
calls of `process` made so far; `none` when `process` panics. -/
def indexLoop (proc : GoString → Package → ProcOutcome) (current : State) (base : GoString) :
    List Package → State → List Call → Option (State × List Call)
  | [], next, calls => some (next, calls)
  | info :: rest, next, calls =>
    match current info.Sha256 with
    | some v => indexLoop proc current base rest (next.set info.Sha256 v) calls
    | none =>
      match proc base info with
      | .panicked => none
      | .error _ => indexLoop proc current base rest next (calls ++ [⟨base, info⟩])
      | .ok files =>
        indexLoop proc current base rest (next.set info.Sha256 files) (calls ++ [⟨base, info⟩])

/-- The loop `for _, index := range flag.Args()` of `main`; `none` when the
program exits with status 1 or panics before `writeState`. -/
def argsLoop (w : World) (proc : GoString → Package → ProcOutcome) (current : State) :
    List GoString → State → List Call → Option (State × List Call)
  | [], next, calls => some (next, calls)
  | index :: rest, next, calls =>
    match w.openFile index with
    | .error _ => none
    | .ok findex =>
      match ParseRepodata w.codec findex with
      | .error _ => none
      | .ok (_, rindex) =>
        match indexLoop proc current (Dir index) (rindex.map Prod.snd) next calls with
        | none => none
        | some (next1, calls1) => argsLoop w proc current rest next1 calls1

/-- The function `main` from `next := state{}` on, given the state `current`
that `readState` returned and the arguments `flag.Args()`: the state handed
to `writeState` and the calls of `process` made, or `none` when the program
ends before `writeState`. -/
def main (w : World) (outdir : GoString) (current : State) (args : List GoString) :
    Option (State × List Call) :=
  argsLoop w (fun base pkg => (process w outdir base pkg).1) current args emptyState []

/-! ## Statements of the specification, in its own words -/

/-- The entries the specification says are processed, given the names of the
entries read before (`seen`): an entry is processed when its normalized name
is in the initial set `what` and no earlier entry has that normalized name. -/
def firstWanted (what : List GoString) : List GoString → List Header → List Header
  | _, [] => []
  | seen, hdr :: rest =>
    if normalize hdr.Name ∈ what ∧ normalize hdr.Name ∉ seen then
      hdr :: firstWanted what (normalize hdr.Name :: seen) rest
    else firstWanted what (normalize hdr.Name :: seen) rest

/-- The actions of the processed entries, one entry after the other. -/
def actionsOf (outdir : GoString) (hs : List Header) : List Action :=
  hs.flatMap (fun h => (extractEntry outdir h).getD [])

/-- The processed entries whose loop body ran to its end: those before the
first one on which a slice expression is out of range. -/
def completed (outdir : GoString) (hs : List Header) : List Header :=
  hs.takeWhile (fun h => (extractEntry outdir h).isSome)

/-- The processed entries whose loop body was entered: the completed ones and,
if there is one, the entry on which `extract` panics. -/
def entered (outdir : GoString) (hs : List Header) : List Header :=
  hs.take ((completed outdir hs).length + 1)

/-- Whether a call returned without error. -/
def isOk {α : Type} : Except Error α → Bool
  | .ok _ => true
  | .error _ => false

/-- The last entry of an archive that has the given name. -/
def lastNamed (name : GoString) (entries : List Entry) : Option Entry :=
  (entries.filter (fun e => decide (e.hdr.Name = name))).getLast?

/-- The payload of an entry was read and decodes without error, if the entry
is one of the two that `ParseRepodata` decodes: the payload of an
`index-meta.plist` entry is the dummy `DEADBEEF` or the decoder makes
metadata of it, and the decoder makes an index of the payload of an
`index.plist` entry. -/
def decodes (codec : Codec) (e : Entry) : Bool :=
  (e.hdr.Name != "index-meta.plist".toList ||
      match e.body with
      | .ok buf => buf == "DEADBEEF".toList || isOk (codec.unmarshalMeta buf)
      | .error _ => false)
    && (e.hdr.Name != "index.plist".toList ||
      match e.body with
      | .ok buf => isOk (codec.unmarshalIndex buf)
      | .error _ => false)

/-- The calls of `parseMetaData` and `parseIndex` that `ParseRepodata` makes
on an entry return without error. -/
def parses (codec : Codec) (e : Entry) : Bool :=
  (e.hdr.Name != "index-meta.plist".toList || isOk (parseMetaData codec e.body))
    && (e.hdr.Name != "index.plist".toList || isOk (parseIndex codec e.body))

/-- The metadata an entry decodes to (`none`, the `nil` pointer, for the
dummy payload). -/
def metaVal (codec : Codec) (e : Entry) : Option MetaData :=
  match parseMetaData codec e.body with
  | .ok m => m
  | .error _ => none

/-- The index an entry decodes to. -/
def indexVal (codec : Codec) (e : Entry) : Index :=
  match parseIndex codec e.body with
  | .ok i => i
  | .error _ => []

/-- The metadata of a container: that of its last `index-meta.plist` entry,
or `nil` when it has none. -/
def metaOf (codec : Codec) (entries : List Entry) : Option MetaData :=
  match lastNamed "index-meta.plist".toList entries with
  | none => none
  | some me => metaVal codec me

/-- The package descriptors of the supplied indices, each with the directory
of its index: the candidates for a call of `process`, in the order in which
`main` visits them. -/
def suppliedCalls (w : World) (args : List GoString) : List Call :=
  args.flatMap (fun index =>
    match w.openFile index with
    | .error _ => []
    | .ok findex =>
      match ParseRepodata w.codec findex with
      | .error _ => []
      | .ok (_, rindex) => rindex.map (fun kv => ⟨Dir index, kv.2⟩))

/-- Every supplied index opens and parses. -/
def allParse (w : World) (args : List GoString) : Bool :=
  args.all (fun index =>
    match w.openFile index with
    | .error _ => false
    | .ok findex => isOk (ParseRepodata w.codec findex))

/-- The two loops of `main` as one loop over the candidates. -/
def callsLoop (proc : GoString → Package → ProcOutcome) (current : State) :
    List Call → State → List Call → Option (State × List Call)
  | [], next, calls => some (next, calls)
  | c :: rest, next, calls =>
    match current c.pkg.Sha256 with
    | some v => callsLoop proc current rest (next.set c.pkg.Sha256 v) calls
    | none =>
      match proc c.base c.pkg with
      | .panicked => none
      | .error _ => callsLoop proc current rest next (calls ++ [c])
      | .ok files => callsLoop proc current rest (next.set c.pkg.Sha256 files) (calls ++ [c])

/-! ## Paths: elements, names, and lying inside a directory -/

/-- The elements of a path: what stands between its separators. -/
def elements (s : GoString) : List GoString := s.splitOn '/'

/-- No element of the path is `..`. -/
def noDotDot (s : GoString) : Bool := !(elements s).contains ['.', '.']

/-- The elements of a path that are neither empty nor `.`. -/
def names (s : GoString) : List GoString :=
  (elements s).filter (fun e => e != [] && e != ['.'])

/-- A path element that names an entry of a directory: not empty, not `.`,
not `..`, and without a separator. -/
def isName (e : GoString) : Bool :=
  e != [] && e != ['.'] && e != ['.', '.'] && !e.contains '/'

/-- The path `d` followed by the names `es`: from `.` the first name stands
alone, after `/` it needs no separator, elsewhere it follows a separator. -/
def descend : GoString → List GoString → GoString
  | d, [] => d
  | d, e :: es =>
    descend (if d = ['.'] then e else if d = ['/'] then d ++ e else d ++ '/' :: e) es

/-- The path `p` lies inside the directory `dir`: it is the cleaned `dir`
followed by names, so it is reached from `dir` by going down only. -/
def Inside (dir p : GoString) : Prop :=
  ∃ es : List GoString, (∀ e ∈ es, isName e = true) ∧ p = descend (Clean dir) es

/-- The loop of `Clean` run to its end on `rest`. -/
def cleanRun (rooted : Bool) (rest out : GoString) (dd : Nat) : GoString :=
  cleanLoop rooted rest.length rest out dd

/-- The path ends here or goes on with a separator. -/
def atEnd (l : GoString) : Prop := l = [] ∨ l.head? = some '/'

/-- The default case of the loop of `Clean`, for each of the elements `es`. -/
def appendNames (rooted : Bool) : GoString → List GoString → GoString
  | out, [] => out
  | out, e :: es =>
    appendNames rooted
      ((if (rooted && out.length != 1) || (!rooted && out.length != 0) then out ++ ['/']
        else out) ++ e) es

/-- What the loop of `Clean` keeps true of the bytes written and of `dotdot`:
`dotdot` is within the buffer; a rooted buffer starts with the separator; an
unrooted buffer is empty or starts with an element that is not `.`, and
`dotdot` is `0` or beyond that element. -/
def CleanInv (rooted : Bool) (out : GoString) (dd : Nat) : Prop :=
  dd ≤ out.length ∧
    if rooted then out.head? = some '/' ∧ 1 ≤ dd
    else out = [] ∨ ∃ e rest, out = e ++ rest ∧ e ≠ [] ∧ '/' ∉ e ∧ e ≠ ['.']
      ∧ atEnd rest ∧ (dd = 0 ∨ e.length ≤ dd)

/-! ## Concrete inputs -/

/-- The one package of the example index. -/
def exPackage : Package :=
  ⟨"x86_64".toList, "abc123".toList, 10, "foo-1.0_1".toList⟩

/-- A decoder for the examples: every index payload lists `exPackage`, every
manifest payload lists one man page. -/
def exCodec : Codec where
  unmarshalIndex := fun _ => .ok [("foo".toList, exPackage)]
  unmarshalMeta := fun buf => .ok ⟨buf, 0, [], []⟩
  unmarshalFiles := fun _ => .ok ⟨[], [⟨"/usr/share/man/man1/foo.1".toList, 0, []⟩], []⟩

/-- A repository index with the dummy signing metadata and an index. -/
def exRepodata : Archive :=
  ⟨none,
   [⟨⟨"index-meta.plist".toList, TypeReg, []⟩, .ok "DEADBEEF".toList⟩,
    ⟨⟨"index.plist".toList, TypeReg, []⟩, .ok []⟩],
   none⟩

/-- A repository index that holds the index first and signing metadata, other
than the dummy, after it. -/
def exRepodataSigned : Archive :=
  ⟨none,
   [⟨⟨"index.plist".toList, TypeReg, []⟩, .ok "I".toList⟩,
    ⟨⟨"index-meta.plist".toList, TypeReg, []⟩, .ok "KEY".toList⟩],
   none⟩

/-- A repository index with signing metadata and no index. -/
def exRepodataNoIndex : Archive :=
  ⟨none, [⟨⟨"index-meta.plist".toList, TypeReg, []⟩, .ok "DEADBEEF".toList⟩], none⟩

/-- The package archive of `exPackage`. -/
def exPackageFile : Archive :=
  ⟨none,
   [⟨⟨"./files.plist".toList, TypeReg, []⟩, .ok []⟩,
    ⟨⟨"./usr/share/man/man1/foo.1".toList, TypeReg, []⟩, .ok []⟩],
   none⟩

/-- A file system with the index and the package archive. -/
def exWorld : World where
  codec := exCodec
  openFile := fun path =>
    if path = "repo/x86_64-repodata".toList then .ok exRepodata
    else if path = "repo/foo-1.0_1.x86_64.xbps".toList then .ok exPackageFile
    else .error (.external "no such file".toList)

/-- A file system with the index and without the package archive. -/
def exWorldNoPackage : World where
  codec := exCodec
  openFile := fun path =>
    if path = "repo/x86_64-repodata".toList then .ok exRepodata
    else .error (.external "no such file".toList)

/-! ## Strings -/

theorem hasPrefix_iff (s p : GoString) : HasPrefix s p = true ↔ p <+: s := by
  unfold HasPrefix
  constructor
  · intro h
    simp only [Bool.and_eq_true, decide_eq_true_eq, beq_iff_eq] at h
    exact h.2 ▸ List.take_prefix _ _
  · rintro ⟨t, rfl⟩
    simp

theorem appendIf_foldl {α : Type} (p : α → Bool) (f : α → GoString) (l : List α)
    (init : List GoString) :
    l.foldl (fun m x => if p x then m ++ [f x] else m) init
      = init ++ (l.filter p).map f := by
  induction l generalizing init with
  | nil => simp
  | cons x xs ih =>
    by_cases hx : p x = true
    · simp [List.foldl_cons, hx, ih]
    · simp [List.foldl_cons, hx, ih]

theorem matchFiles_eq (files : Files) :
    matchFiles files
      = (files.Files.filter (fun f => HasPrefix f.Name pfx)).map FileEntry.Name
        ++ (files.Links.filter (fun l => HasPrefix l.Name pfx)).map LinkEntry.Name := by
  unfold matchFiles
  simp only
  rw [appendIf_foldl (fun f : FileEntry => HasPrefix f.Name pfx) FileEntry.Name,
    appendIf_foldl (fun l : LinkEntry => HasPrefix l.Name pfx) LinkEntry.Name]
  simp

/-- C1: `matchFiles` returns the names of the `Files` entries that start with
`/usr/share/man/`, then the names of the `Links` entries that do, each group
in manifest order and with multiplicity; the result is the same for any other
`Dirs`, and every name in it starts with the fixed path. -/
theorem matchFiles_spec (dirs dirs2 : List DirEntry) (files : List FileEntry)
    (links : List LinkEntry) :
    matchFiles ⟨dirs, files, links⟩
        = (files.map FileEntry.Name).filter (fun n => decide ("/usr/share/man/".toList <+: n))
          ++ (links.map LinkEntry.Name).filter (fun n => decide ("/usr/share/man/".toList <+: n))
      ∧ matchFiles ⟨dirs2, files, links⟩ = matchFiles ⟨dirs, files, links⟩
      ∧ ∀ n ∈ matchFiles ⟨dirs, files, links⟩, "/usr/share/man/".toList <+: n := by
  have hp : ∀ n : GoString,
      decide ("/usr/share/man/".toList <+: n) = HasPrefix n pfx := by
    intro n
    rw [Bool.eq_iff_iff, decide_eq_true_eq, hasPrefix_iff]
    rfl
  refine ⟨?_, ?_, ?_⟩
  · rw [matchFiles_eq]
    simp only [hp, List.filter_map]
    rfl
  · rw [matchFiles_eq, matchFiles_eq]
  · intro n hn
    rw [matchFiles_eq] at hn
    simp only [List.mem_append, List.mem_map, List.mem_filter] at hn
    rcases hn with ⟨f, ⟨_, hf⟩, rfl⟩ | ⟨l, ⟨_, hl⟩, rfl⟩
    · exact (hasPrefix_iff _ _).1 hf
    · exact (hasPrefix_iff _ _).1 hl

/-! ## `extract`: each wanted name is processed once -/

theorem firstWanted_nil_of_seen (what : List GoString) (hs : List Header) :
    ∀ seen : List GoString, (∀ x ∈ what, x ∈ seen) → firstWanted what seen hs = [] := by
  induction hs with
  | nil => intro seen _; rfl
  | cons h t ih =>
    intro seen hseen
    have hno : ¬ (normalize h.Name ∈ what ∧ normalize h.Name ∉ seen) :=
      fun hc => hc.2 (hseen _ hc.1)
    rw [firstWanted, if_neg hno]
    exact ih _ (fun x hx => List.mem_cons_of_mem _ (hseen x hx))

theorem firstWanted_names (what : List GoString) (hs : List Header) :
    ∀ seen : List GoString,
      ((firstWanted what seen hs).map (fun h => normalize h.Name)).Nodup
        ∧ ∀ h ∈ firstWanted what seen hs,
            normalize h.Name ∈ what ∧ normalize h.Name ∉ seen := by
  induction hs with
  | nil => intro seen; simp [firstWanted]
  | cons h t ih =>
    intro seen
    obtain ⟨hnd, hmem⟩ := ih (normalize h.Name :: seen)
    by_cases hc : normalize h.Name ∈ what ∧ normalize h.Name ∉ seen
    · rw [firstWanted, if_pos hc]
      refine ⟨?_, ?_⟩
      · rw [List.map_cons, List.nodup_cons]
        refine ⟨?_, hnd⟩
        intro hin
        obtain ⟨g, hg, hgn⟩ := List.mem_map.1 hin
        exact (hmem g hg).2 (by simp [hgn])
      · intro g hg
        rcases List.mem_cons.1 hg with rfl | hg
        · exact hc
        · exact ⟨(hmem g hg).1, fun hs => (hmem g hg).2 (List.mem_cons_of_mem _ hs)⟩
    · rw [firstWanted, if_neg hc]
      exact ⟨hnd, fun g hg =>
        ⟨(hmem g hg).1, fun hs => (hmem g hg).2 (List.mem_cons_of_mem _ hs)⟩⟩

theorem extractLoop_spec (outdir : GoString) (final : Option Error) (what0 : List GoString)
    (hs : List Header) :
    ∀ (what seen : List GoString) (acc : List Action),
      (∀ x, x ∈ what ↔ x ∈ what0 ∧ x ∉ seen) →
      (extractLoop outdir final hs what acc).trace
          = acc ++ actionsOf outdir (completed outdir (firstWanted what0 seen hs))
        ∧ ((extractLoop outdir final hs what acc).outcome = Outcome.panicked
            ↔ (completed outdir (firstWanted what0 seen hs)).length
                < (firstWanted what0 seen hs).length)
        ∧ (extractLoop outdir final hs what acc).what
          = what.filter
              (fun x => decide (x ∉ (entered outdir (firstWanted what0 seen hs)).map
                (fun h => normalize h.Name))) := by
  induction hs with
  | nil =>
    intro what seen acc _
    have h1 : (extractLoop outdir final [] what acc).trace = acc := by
      unfold extractLoop; split
      · rfl
      · split <;> rfl
    have h2 : (extractLoop outdir final [] what acc).what = what := by
      unfold extractLoop; split
      · rfl
      · split <;> rfl
    have h3 : (extractLoop outdir final [] what acc).outcome ≠ Outcome.panicked := by
      unfold extractLoop; split
      · exact fun h => Outcome.noConfusion h
      · split <;> exact fun h => Outcome.noConfusion h
    simp [h1, h2, h3, firstWanted, actionsOf, completed, entered]
  | cons h t ih =>
    intro what seen acc hinv
    by_cases hw : what = []
    · have hfw : firstWanted what0 seen (h :: t) = [] := by
        apply firstWanted_nil_of_seen
        intro x hx
        by_contra hxs
        have : x ∈ what := (hinv x).2 ⟨hx, hxs⟩
        simp [hw] at this
      rw [hfw]
      simp [extractLoop, hw, actionsOf, completed, entered]
    · by_cases hin : normalize h.Name ∈ what
      · have hc : normalize h.Name ∈ what0 ∧ normalize h.Name ∉ seen := (hinv _).1 hin
        have hinv2 : ∀ x, x ∈ what.filter (fun k => decide (k ≠ normalize h.Name))
            ↔ x ∈ what0 ∧ x ∉ normalize h.Name :: seen := by
          intro x
          simp only [List.mem_filter, decide_eq_true_eq, List.mem_cons, not_or, hinv x]
          tauto
        rw [firstWanted, if_pos hc]
        cases he : extractEntry outdir h with
        | none =>
          have hstep : extractLoop outdir final (h :: t) what acc
              = ⟨Outcome.panicked, what.filter (fun k => decide (k ≠ normalize h.Name)), acc⟩ := by
            simp [extractLoop, hw, hin, he]
          have hcomp : completed outdir
              (h :: firstWanted what0 (normalize h.Name :: seen) t) = [] := by
            unfold completed
            rw [List.takeWhile_cons_of_neg]
            simp [he]
          rw [hstep]
          unfold entered
          rw [hcomp]
          refine ⟨by simp [actionsOf], by simp, ?_⟩
          apply List.filter_congr
          intro x _
          simp
        | some acts =>
          have hstep : extractLoop outdir final (h :: t) what acc
              = extractLoop outdir final t
                  (what.filter (fun k => decide (k ≠ normalize h.Name))) (acc ++ acts) := by
            simp [extractLoop, hw, hin, he]
          have hcomp : completed outdir
              (h :: firstWanted what0 (normalize h.Name :: seen) t)
              = h :: completed outdir (firstWanted what0 (normalize h.Name :: seen) t) := by
            unfold completed
            rw [List.takeWhile_cons_of_pos]
            simp [he]
          obtain ⟨e1, e2, e3⟩ := ih _ (normalize h.Name :: seen) (acc ++ acts) hinv2
          rw [hstep, e1, e3]
          unfold entered
          rw [hcomp]
          refine ⟨?_, ?_, ?_⟩
          · simp [actionsOf, List.flatMap_cons, he]
          · rw [e2]
            simp
          · rw [List.filter_filter]
            apply List.filter_congr
            intro x _
            simp only [entered, List.length_cons, List.take_succ_cons, List.map_cons,
              List.mem_cons, not_or, Bool.decide_and, ne_eq]
            rw [Bool.and_comm]
      · have hc : ¬ (normalize h.Name ∈ what0 ∧ normalize h.Name ∉ seen) :=
          fun hc => hin ((hinv _).2 hc)
        have hinv2 : ∀ x, x ∈ what ↔ x ∈ what0 ∧ x ∉ normalize h.Name :: seen := by
          intro x
          simp only [List.mem_cons, not_or, hinv x]
          constructor
          · rintro ⟨h1, h2⟩
            refine ⟨h1, ?_, h2⟩
            rintro rfl
            exact hin ((hinv _).2 ⟨h1, h2⟩)
          · rintro ⟨h1, _, h2⟩
            exact ⟨h1, h2⟩
        have hstep : extractLoop outdir final (h :: t) what acc
            = extractLoop outdir final t what acc := by
          simp [extractLoop, hw, hin]
        rw [hstep, firstWanted, if_neg hc]
        exact ih _ (normalize h.Name :: seen) acc hinv2

theorem completed_eq_self (outdir : GoString) (hs : List Header)
    (h : ¬ (completed outdir hs).length < hs.length) :
    completed outdir hs = hs ∧ entered outdir hs = hs := by
  have hpre : completed outdir hs <+: hs := List.takeWhile_prefix _
  have hlen : (completed outdir hs).length = hs.length :=
    Nat.le_antisymm hpre.length_le (Nat.le_of_not_lt h)
  have heq : completed outdir hs = hs := hpre.eq_of_length hlen
  refine ⟨heq, ?_⟩
  unfold entered
  rw [heq]
  exact List.take_of_length_le (Nat.le_succ _)

/-- C6: for every archive and every initial set `what`, the entries `extract`
processes are among the entries whose normalized name is in `what` and is not
the normalized name of an earlier entry, in order, and no two of these have
the same normalized name.  The requested actions are the actions of those of
them whose loop body ran to its end, and of no other entry; `extract` panics
exactly when the body of one of them does not; the final set is the initial
one without the normalized names of the entries whose body was entered.  When
`extract` does not panic, so also when it returns `nil`, these are all the
entries described, and the final set is the initial one without their
normalized names. -/
theorem extract_at_most_once (outdir : GoString) (ar : TarReader) (what : List GoString) :
    (extract outdir ar what).trace
        = actionsOf outdir (completed outdir (firstWanted what [] ar.entries))
      ∧ ((firstWanted what [] ar.entries).map (fun h => normalize h.Name)).Nodup
      ∧ ((extract outdir ar what).outcome = Outcome.panicked
          ↔ (completed outdir (firstWanted what [] ar.entries)).length
              < (firstWanted what [] ar.entries).length)
      ∧ (extract outdir ar what).what
          = what.filter (fun x =>
              decide (x ∉ (entered outdir (firstWanted what [] ar.entries)).map
                (fun h => normalize h.Name)))
      ∧ ((extract outdir ar what).outcome ≠ Outcome.panicked →
          (extract outdir ar what).trace = actionsOf outdir (firstWanted what [] ar.entries)
            ∧ (extract outdir ar what).what
              = what.filter (fun x =>
                  decide (x ∉ (firstWanted what [] ar.entries).map
                    (fun h => normalize h.Name)))) := by
  obtain ⟨h1, h2, h3⟩ := extractLoop_spec outdir ar.final what ar.entries what [] [] (by simp)
  rw [List.nil_append] at h1
  refine ⟨h1, (firstWanted_names what ar.entries []).1, h2, h3, ?_⟩
  intro hnp
  have hfull := completed_eq_self outdir (firstWanted what [] ar.entries)
    (fun hlt => hnp (h2.2 hlt))
  have h1b := h1
  have h3b := h3
  rw [hfull.1] at h1b
  rw [hfull.2] at h3b
  exact ⟨h1b, h3b⟩

/-- A run on an archive that stores a name twice: the second copy is not
processed, and the name that is in no entry stays in the set. -/
theorem extract_duplicate_name :
    extract "out".toList
        ⟨[⟨"./usr/share/man/man1/a.1".toList, TypeReg, []⟩,
          ⟨"./etc/passwd".toList, TypeReg, []⟩,
          ⟨"./usr/share/man/man1/a.1".toList, TypeSymlink, "b.1".toList⟩], none⟩
        ["/usr/share/man/man1/a.1".toList, "/usr/share/man/man1/c.1".toList]
      = ⟨Outcome.returned none, ["/usr/share/man/man1/c.1".toList],
         [Action.EnsureDir "out/man1".toList, Action.Printf "out/man1/a.1".toList,
          Action.CreateAndCopy "out/man1/a.1".toList]⟩ := by
  decide

/-- A run that panics on its second wanted entry: the actions of the first
entry were requested, the name of the second is already deleted, and the
third entry is never read. -/
theorem extract_panic_midway :
    extract "out".toList
        ⟨[⟨"./usr/share/man/man1/a.1".toList, TypeReg, []⟩,
          ⟨"/usr/share/man/".toList, TypeReg, []⟩,
          ⟨"./usr/share/man/man1/b.1".toList, TypeReg, []⟩], none⟩
        ["/usr/share/man/man1/a.1".toList, "/usr/share/man/".toList,
         "/usr/share/man/man1/b.1".toList]
      = ⟨Outcome.panicked, ["/usr/share/man/man1/b.1".toList],
         [Action.EnsureDir "out/man1".toList, Action.Printf "out/man1/a.1".toList,
          Action.CreateAndCopy "out/man1/a.1".toList]⟩ := by
  decide

/-! ## `extract`: symbolic links -/

theorem dirScan_no_separator (path : GoString) (h : '/' ∉ path) :
    ∀ i, dirScan path i = 0 := by
  intro i
  induction i with
  | zero => rfl
  | succ i ih =>
    have hne : path.get? i ≠ some '/' := by
      intro hc
      exact h (List.get?_mem hc)
    rw [dirScan, if_pos hne, ih]

theorem Dir_no_separator (path : GoString) (h : '/' ∉ path) : Dir path = ['.'] := by
  unfold Dir
  rw [dirScan_no_separator path h]
  rfl

theorem sliceFrom_some (s : GoString) (k : Nat) (h : k ≤ s.length) :
    sliceFrom s k = some (s.drop k) := by
  unfold sliceFrom
  rw [if_pos h]

theorem sliceFrom_none (s : GoString) (k : Nat) (h : s.length < k) :
    sliceFrom s k = none := by
  unfold sliceFrom
  rw [if_neg (Nat.not_le.2 h)]

theorem extractEntry_none (outdir : GoString) (hdr : Header)
    (h : hdr.Name.length < pfx.length + 1) : extractEntry outdir hdr = none := by
  unfold extractEntry
  rw [sliceFrom_none _ _ h]

/-- C2, as the code has it: for an entry of type symbolic link found in
`what` whose stored name has at least `len(prefix)+1` bytes, the output path
is `Join outdir` of the stored name from that offset; when `filepath.Dir` of
the link target is not `.` the skipping diagnostic is emitted and no symlink
is requested; when it is `.`, and so whenever the target holds no separator,
a symlink with the stored target is requested at the output path.  On a
shorter stored name the loop body does not reach the switch. -/
theorem symlink_policy (outdir : GoString) (hdr : Header)
    (hty : hdr.Typeflag = TypeSymlink) :
    (pfx.length + 1 ≤ hdr.Name.length →
        (Dir hdr.Linkname ≠ ['.'] →
          extractEntry outdir hdr
            = some [Action.EnsureDir (Dir (Join outdir (hdr.Name.drop (pfx.length + 1)))),
                    Action.Printf (Join outdir (hdr.Name.drop (pfx.length + 1))),
                    Action.SkippingSymlink (Join outdir (hdr.Name.drop (pfx.length + 1)))
                      hdr.Linkname])
        ∧ (Dir hdr.Linkname = ['.'] →
          extractEntry outdir hdr
            = some [Action.EnsureDir (Dir (Join outdir (hdr.Name.drop (pfx.length + 1)))),
                    Action.Printf (Join outdir (hdr.Name.drop (pfx.length + 1))),
                    Action.Symlink hdr.Linkname
                      (Join outdir (hdr.Name.drop (pfx.length + 1)))]))
      ∧ (hdr.Name.length < pfx.length + 1 → extractEntry outdir hdr = none)
      ∧ ('/' ∉ hdr.Linkname → Dir hdr.Linkname = ['.']) := by
  refine ⟨fun hlen => ⟨?_, ?_⟩, extractEntry_none outdir hdr, Dir_no_separator _⟩
  · intro hd
    simp [extractEntry, sliceFrom_some _ _ hlen, dispatch, hty, hd]
  · intro hd
    simp [extractEntry, sliceFrom_some _ _ hlen, dispatch, hty, hd]

/-- C2 at a link `bar.1 -> foo.1`. -/
theorem symlink_policy_witness :
    extractEntry "out".toList
        ⟨"./usr/share/man/man1/bar.1".toList, TypeSymlink, "foo.1".toList⟩
      = some [Action.EnsureDir (Dir (Join "out".toList
                ("./usr/share/man/man1/bar.1".toList.drop (pfx.length + 1)))),
              Action.Printf (Join "out".toList
                ("./usr/share/man/man1/bar.1".toList.drop (pfx.length + 1))),
              Action.Symlink "foo.1".toList
                (Join "out".toList
                  ("./usr/share/man/man1/bar.1".toList.drop (pfx.length + 1)))] :=
  ((symlink_policy "out".toList
      ⟨"./usr/share/man/man1/bar.1".toList, TypeSymlink, "foo.1".toList⟩
      (by decide)).1 (by decide)).2 (by decide)

/-- C2 as stated fails.  The target `./foo.1` holds a separator, and the
symlink is requested all the same, with no diagnostic.  And on the matched
entry stored as `/usr/share/man/`, with the target `a/b`, `extract` panics
at the slice of the stored name, before the switch: no diagnostic is
emitted. -/
theorem symlink_with_separator_requested :
    ('/' ∈ "./foo.1".toList
      ∧ extract "out".toList
          ⟨[⟨"./usr/share/man/man1/bar.1".toList, TypeSymlink, "./foo.1".toList⟩], none⟩
          ["/usr/share/man/man1/bar.1".toList]
        = ⟨Outcome.returned none, [],
           [Action.EnsureDir "out/man1".toList, Action.Printf "out/man1/bar.1".toList,
            Action.Symlink "./foo.1".toList "out/man1/bar.1".toList]⟩)
      ∧ ('/' ∈ "a/b".toList
        ∧ extract "out".toList
            ⟨[⟨"/usr/share/man/".toList, TypeSymlink, "a/b".toList⟩], none⟩
            ["/usr/share/man/".toList]
          = ⟨Outcome.panicked, [], []⟩) := by
  decide

/-! ## `extract`: hard links -/

theorem sliceFrom_of_hasPrefix (s p : GoString) (h : HasPrefix s p = true) :
    sliceFrom s p.length = some (s.drop p.length) := by
  obtain ⟨t, rfl⟩ := (hasPrefix_iff s p).1 h
  simp [sliceFrom]

theorem typeLink_ne_typeSymlink : TypeLink ≠ TypeSymlink := by decide

theorem extractEntry_link_skip (outdir : GoString) (hdr : Header) (s : GoString)
    (hty : hdr.Typeflag = TypeLink)
    (hs : sliceFrom hdr.Name (pfx.length + 1) = some s)
    (hd : HasPrefix hdr.Linkname ('.' :: pfx) = false) :
    extractEntry outdir hdr
      = some [Action.EnsureDir (Dir (Join outdir s)), Action.Printf (Join outdir s),
              Action.SkippingHardlink (Join outdir s) hdr.Linkname] := by
  simp only [extractEntry, hs, dispatch, hty, typeLink_ne_typeSymlink, hd, if_false, if_true,
    Bool.not_false]

theorem extractEntry_link_ok (outdir : GoString) (hdr : Header) (s : GoString)
    (hty : hdr.Typeflag = TypeLink)
    (hs : sliceFrom hdr.Name (pfx.length + 1) = some s)
    (hd : HasPrefix hdr.Linkname ('.' :: pfx) = true) :
    extractEntry outdir hdr
      = some [Action.EnsureDir (Dir (Join outdir s)), Action.Printf (Join outdir s),
              Action.Link (Join outdir (hdr.Linkname.drop (pfx.length + 1))) (Join outdir s)] := by
  have hsl : sliceFrom hdr.Linkname (pfx.length + 1)
      = some (hdr.Linkname.drop (pfx.length + 1)) :=
    sliceFrom_of_hasPrefix hdr.Linkname ('.' :: pfx) hd
  simp only [extractEntry, hs, dispatch, hty, typeLink_ne_typeSymlink, hd, if_false, if_true,
    Bool.not_true, hsl, Bool.false_eq_true]

/-- C3, as the code has it: for an entry of type hard link found in `what`
whose stored name has at least `len(prefix)+1` bytes (output path `Join
outdir` of the stored name from that offset), when the stored link target
does not start with `./usr/share/man/`, and so whenever the target without
one leading dot does not start with `/usr/share/man/`, the skipping
diagnostic is emitted and no link is requested; when the stored target starts
with `./usr/share/man/`, a hard link is requested from the output path to
`Join outdir` of the target without its leading dot and without the fixed
path.  On a shorter stored name the loop body does not reach the switch. -/
theorem hardlink_policy (outdir : GoString) (hdr : Header)
    (hty : hdr.Typeflag = TypeLink) :
    (pfx.length + 1 ≤ hdr.Name.length →
        (HasPrefix hdr.Linkname "./usr/share/man/".toList = false →
          extractEntry outdir hdr
            = some [Action.EnsureDir (Dir (Join outdir (hdr.Name.drop (pfx.length + 1)))),
                    Action.Printf (Join outdir (hdr.Name.drop (pfx.length + 1))),
                    Action.SkippingHardlink (Join outdir (hdr.Name.drop (pfx.length + 1)))
                      hdr.Linkname])
        ∧ (HasPrefix hdr.Linkname "./usr/share/man/".toList = true →
          extractEntry outdir hdr
            = some [Action.EnsureDir (Dir (Join outdir (hdr.Name.drop (pfx.length + 1)))),
                    Action.Printf (Join outdir (hdr.Name.drop (pfx.length + 1))),
                    Action.Link
                      (Join outdir
                        ((normalize hdr.Linkname).drop "/usr/share/man/".toList.length))
                      (Join outdir (hdr.Name.drop (pfx.length + 1)))]))
      ∧ (hdr.Name.length < pfx.length + 1 → extractEntry outdir hdr = none)
      ∧ (HasPrefix (normalize hdr.Linkname) "/usr/share/man/".toList = false →
        HasPrefix hdr.Linkname "./usr/share/man/".toList = false) := by
  have hp : "./usr/share/man/".toList = '.' :: pfx := by decide
  have hq : "/usr/share/man/".toList = pfx := rfl
  rw [hp, hq]
  refine ⟨fun hlen => ⟨extractEntry_link_skip outdir hdr _ hty (sliceFrom_some _ _ hlen), ?_⟩,
    extractEntry_none outdir hdr, ?_⟩
  · intro hd
    obtain ⟨t, ht⟩ := (hasPrefix_iff _ _).1 hd
    have hdrop : (normalize hdr.Linkname).drop pfx.length
        = hdr.Linkname.drop (pfx.length + 1) := by
      rw [← ht]
      rfl
    rw [hdrop]
    exact extractEntry_link_ok outdir hdr _ hty (sliceFrom_some _ _ hlen) hd
  · intro hn
    by_contra hc
    rw [Bool.not_eq_false] at hc
    obtain ⟨t, ht⟩ := (hasPrefix_iff _ _).1 hc
    rw [← ht] at hn
    have : HasPrefix (normalize ('.' :: pfx ++ t)) pfx = true := by
      rw [hasPrefix_iff]
      exact ⟨t, rfl⟩
    rw [this] at hn
    exact Bool.noConfusion hn

/-- C3 at a hard link `b.1` to `./usr/share/man/man1/a.1`. -/
theorem hardlink_policy_witness :
    extractEntry "out".toList
        ⟨"./usr/share/man/man1/b.1".toList, TypeLink, "./usr/share/man/man1/a.1".toList⟩
      = some [Action.EnsureDir (Dir (Join "out".toList
                ("./usr/share/man/man1/b.1".toList.drop (pfx.length + 1)))),
              Action.Printf (Join "out".toList
                ("./usr/share/man/man1/b.1".toList.drop (pfx.length + 1))),
              Action.Link
                (Join "out".toList
                  ((normalize "./usr/share/man/man1/a.1".toList).drop
                    "/usr/share/man/".toList.length))
                (Join "out".toList
                  ("./usr/share/man/man1/b.1".toList.drop (pfx.length + 1)))] :=
  ((hardlink_policy "out".toList
      ⟨"./usr/share/man/man1/b.1".toList, TypeLink, "./usr/share/man/man1/a.1".toList⟩
      (by decide)).1 (by decide)).2 (by decide)

/-- C3 as stated fails.  The link target `/usr/share/man/man1/a.1`, stored
without a leading dot, starts with the fixed path after normalization, and
the entry is skipped with the diagnostic: no hard link is requested.  And on
the matched entry stored as `/usr/share/man/`, with the target `/etc/passwd`
that does not start with the fixed path, `extract` panics at the slice of the
stored name, before the switch: no diagnostic is emitted. -/
theorem hardlink_without_dot_skipped :
    (HasPrefix (normalize "/usr/share/man/man1/a.1".toList) "/usr/share/man/".toList = true
      ∧ extract "out".toList
          ⟨[⟨"./usr/share/man/man1/b.1".toList, TypeLink, "/usr/share/man/man1/a.1".toList⟩],
            none⟩
          ["/usr/share/man/man1/b.1".toList]
        = ⟨Outcome.returned none, [],
           [Action.EnsureDir "out/man1".toList, Action.Printf "out/man1/b.1".toList,
            Action.SkippingHardlink "out/man1/b.1".toList "/usr/share/man/man1/a.1".toList]⟩)
      ∧ (HasPrefix (normalize "/etc/passwd".toList) "/usr/share/man/".toList = false
        ∧ extract "out".toList
            ⟨[⟨"/usr/share/man/".toList, TypeLink, "/etc/passwd".toList⟩], none⟩
            ["/usr/share/man/".toList]
          = ⟨Outcome.panicked, [], []⟩) := by
  decide

/-! ## `extract`: the output path -/

theorem extractEntry_outpath (outdir : GoString) (hdr : Header) (acts : List Action)
    (h : extractEntry outdir hdr = some acts) :
    ∃ s rest, sliceFrom hdr.Name (pfx.length + 1) = some s
      ∧ acts = Action.EnsureDir (Dir (Join outdir s)) :: Action.Printf (Join outdir s) :: rest := by
  unfold extractEntry at h
  cases hs : sliceFrom hdr.Name (pfx.length + 1) with
  | none => simp [hs] at h
  | some s =>
    simp only [hs] at h
    cases hd : dispatch outdir hdr (Join outdir s) with
    | none => simp [hd] at h
    | some r =>
      simp only [hd, Option.some.injEq] at h
      exact ⟨s, r, rfl, h.symm⟩

/-- For a name stored with the leading dot, as `./usr/share/man/...`, the
output path is `Join outdir` of the normalized name without the fixed path. -/
theorem outpath_of_dotted_name (outdir : GoString) (hdr : Header) (acts : List Action)
    (hdot : HasPrefix hdr.Name ['.'] = true)
    (h : extractEntry outdir hdr = some acts) :
    ∃ rest, acts
      = Action.EnsureDir (Dir (Join outdir ((normalize hdr.Name).drop pfx.length)))
        :: Action.Printf (Join outdir ((normalize hdr.Name).drop pfx.length)) :: rest := by
  obtain ⟨s, rest, hs, rfl⟩ := extractEntry_outpath outdir hdr acts h
  obtain ⟨t, ht⟩ := (hasPrefix_iff _ _).1 hdot
  have hn : normalize hdr.Name = t := by
    unfold normalize
    rw [hdot, ← ht]
    rfl
  have hs2 : s = hdr.Name.drop (pfx.length + 1) := by
    unfold sliceFrom at hs
    split at hs
    · exact (Option.some.inj hs).symm
    · exact absurd hs (by simp)
  refine ⟨rest, ?_⟩
  have : (normalize hdr.Name).drop pfx.length = s := by
    rw [hn, hs2, ← ht]
    rfl
  rw [this]

/-- C5 fails for a name stored without the leading dot: for the archive entry
`/usr/share/man/man1/foo.1`, found in `what`, `extract` writes to
`out/an1/foo.1`, and the claim's path is `out/man1/foo.1`. -/
theorem outpath_of_undotted_name :
    extract "out".toList ⟨[⟨"/usr/share/man/man1/foo.1".toList, TypeReg, []⟩], none⟩
        ["/usr/share/man/man1/foo.1".toList]
      = ⟨Outcome.returned none, [],
         [Action.EnsureDir "out/an1".toList, Action.Printf "out/an1/foo.1".toList,
          Action.CreateAndCopy "out/an1/foo.1".toList]⟩
      ∧ Join "out".toList
          ((normalize "/usr/share/man/man1/foo.1".toList).drop "/usr/share/man/".toList.length)
        = "out/man1/foo.1".toList := by
  decide

/-- C10 fails: the manifest lists a file named `/usr/share/man/`, `matchFiles`
puts it in `what`, every member of `what` starts with the fixed path, and on
the archive entry stored under that name without a leading dot `extract`
panics: the slice of the stored name at offset `len(prefix)+1` is out of
range. -/
theorem extract_panics_on_bare_name :
    matchFiles ⟨[], [⟨"/usr/share/man/".toList, 0, []⟩], []⟩ = ["/usr/share/man/".toList]
      ∧ (∀ n ∈ matchFiles ⟨[], [⟨"/usr/share/man/".toList, 0, []⟩], []⟩,
          "/usr/share/man/".toList <+: n)
      ∧ sliceFrom "/usr/share/man/".toList ("/usr/share/man/".toList.length + 1) = none
      ∧ (extract "out".toList ⟨[⟨"/usr/share/man/".toList, TypeReg, []⟩], none⟩
          (matchFiles ⟨[], [⟨"/usr/share/man/".toList, 0, []⟩], []⟩)).outcome
        = Outcome.panicked := by
  refine ⟨by decide, ?_, by decide, by decide⟩
  intro n hn
  have h : matchFiles ⟨[], [⟨"/usr/share/man/".toList, 0, []⟩], []⟩
      = ["/usr/share/man/".toList] := by decide
  rw [h, List.mem_singleton] at hn
  rw [hn]

/-! ## `ParseRepodata` -/

theorem lastNamed_cons (name : GoString) (e : Entry) (rest : List Entry) :
    lastNamed name (e :: rest)
      = match lastNamed name rest with
        | some x => some x
        | none => if e.hdr.Name = name then some e else none := by
  unfold lastNamed
  by_cases hn : e.hdr.Name = name
  · rw [List.filter_cons_of_pos (by simpa using hn), List.getLast?_cons]
    cases (List.filter (fun e => decide (e.hdr.Name = name)) rest).getLast? <;> simp [hn]
  · rw [List.filter_cons_of_neg (by simpa using hn)]
    cases (List.filter (fun e => decide (e.hdr.Name = name)) rest).getLast? <;> simp [hn]

theorem lastNamed_eq_none (name : GoString) (entries : List Entry) :
    lastNamed name entries = none ↔ ∀ e ∈ entries, e.hdr.Name ≠ name := by
  unfold lastNamed
  rw [List.getLast?_eq_none_iff, List.filter_eq_nil_iff]
  simp

theorem lastNamed_mem (name : GoString) (entries : List Entry) (e : Entry)
    (h : lastNamed name entries = some e) : e ∈ entries ∧ e.hdr.Name = name := by
  have hm := List.mem_of_getLast?_eq_some h
  rw [List.mem_filter] at hm
  exact ⟨hm.1, by simpa using hm.2⟩

theorem isOk_parseMetaData (codec : Codec) (e : Entry)
    (h : isOk (parseMetaData codec e.body) = true) :
    parseMetaData codec e.body = .ok (metaVal codec e) := by
  unfold metaVal
  cases hp : parseMetaData codec e.body with
  | ok m => rfl
  | error err => rw [hp] at h; exact Bool.noConfusion h

theorem isOk_parseIndex (codec : Codec) (e : Entry)
    (h : isOk (parseIndex codec e.body) = true) :
    parseIndex codec e.body = .ok (indexVal codec e) := by
  unfold indexVal
  cases hp : parseIndex codec e.body with
  | ok m => rfl
  | error err => rw [hp] at h; exact Bool.noConfusion h

theorem indexName_ne_metaName : "index.plist".toList ≠ "index-meta.plist".toList := by decide

theorem parseRepodataLoop_eq (codec : Codec) (entries : List Entry) :
    ∀ (m : Option MetaData) (index : Index) (haveIndex : Bool),
      (∀ e ∈ entries, parses codec e = true) →
      parseRepodataLoop codec none entries m index haveIndex
        = if haveIndex || (lastNamed "index.plist".toList entries).isSome then
            .ok ((match lastNamed "index-meta.plist".toList entries with
                  | none => m
                  | some me => metaVal codec me),
                 (match lastNamed "index.plist".toList entries with
                  | none => index
                  | some ie => indexVal codec ie))
          else .error .missingIndex := by
  induction entries with
  | nil =>
    intro m index haveIndex _
    cases haveIndex <;> simp [parseRepodataLoop, lastNamed]
  | cons e rest ih =>
    intro m index haveIndex hd
    have hde := hd e (List.mem_cons_self _ _)
    have hrest : ∀ x ∈ rest, parses codec x = true :=
      fun x hx => hd x (List.mem_cons_of_mem _ hx)
    unfold parses at hde
    simp only [Bool.and_eq_true, Bool.or_eq_true, bne_iff_ne, ne_eq] at hde
    rw [lastNamed_cons, lastNamed_cons]
    by_cases hm : e.hdr.Name = "index-meta.plist".toList
    · have hi : e.hdr.Name ≠ "index.plist".toList := by
        rw [hm]; exact fun h => indexName_ne_metaName h.symm
      have hpm := isOk_parseMetaData codec e (hde.1.resolve_left (fun h => h hm))
      rw [parseRepodataLoop, if_pos hm, hpm]
      simp only [if_neg hi, if_pos hm]
      rw [ih _ _ _ hrest]
      cases lastNamed "index.plist".toList rest <;>
        cases lastNamed "index-meta.plist".toList rest <;> rfl
    · by_cases hi : e.hdr.Name = "index.plist".toList
      · have hpi := isOk_parseIndex codec e (hde.2.resolve_left (fun h => h hi))
        rw [parseRepodataLoop, if_neg hm]
        simp only [if_pos hi, if_neg hm, hpi]
        rw [ih _ _ _ hrest]
        cases lastNamed "index.plist".toList rest <;>
          cases lastNamed "index-meta.plist".toList rest <;> simp
      · rw [parseRepodataLoop, if_neg hm]
        simp only [if_neg hi, if_neg hm]
        rw [ih _ _ _ hrest]
        cases lastNamed "index.plist".toList rest <;>
          cases lastNamed "index-meta.plist".toList rest <;> rfl

theorem ParseRepodata_eq (codec : Codec) (r : Archive)
    (hz : r.decompress = none) (hf : r.final = none)
    (hd : ∀ e ∈ r.entries, parses codec e = true) :
    ((∀ e ∈ r.entries, e.hdr.Name ≠ "index.plist".toList) →
        ParseRepodata codec r = .error .missingIndex)
      ∧ (∀ ie, lastNamed "index.plist".toList r.entries = some ie →
          ParseRepodata codec r = .ok (metaOf codec r.entries, indexVal codec ie)) := by
  have hP : ParseRepodata codec r = parseRepodataLoop codec none r.entries none [] false := by
    unfold ParseRepodata
    rw [hz, hf]
  have hL := parseRepodataLoop_eq codec r.entries none [] false hd
  refine ⟨?_, ?_⟩
  · intro hno
    rw [hP, hL, (lastNamed_eq_none _ _).2 hno]
    rfl
  · intro ie hie
    rw [hP, hL, hie]
    unfold metaOf
    cases lastNamed "index-meta.plist".toList r.entries <;> rfl

theorem parses_of_decodes (codec : Codec) (e : Entry) (h : decodes codec e = true) :
    parses codec e = true := by
  unfold decodes at h
  unfold parses
  simp only [Bool.and_eq_true, Bool.or_eq_true, bne_iff_ne, ne_eq] at h ⊢
  obtain ⟨h1, h2⟩ := h
  refine ⟨?_, ?_⟩
  · rcases h1 with h1 | h1
    · exact Or.inl h1
    · right
      cases hb : e.body with
      | error err => rw [hb] at h1; exact Bool.noConfusion h1
      | ok buf =>
        rw [hb] at h1
        simp only [Bool.or_eq_true, beq_iff_eq] at h1
        unfold parseMetaData
        by_cases hdead : buf = "DEADBEEF".toList
        · simp only [hdead, if_true]
          rfl
        · simp only [if_neg hdead]
          cases hu : codec.unmarshalMeta buf with
          | ok md => rfl
          | error err =>
            rcases h1 with h1 | h1
            · exact absurd h1 hdead
            · rw [hu] at h1
              exact Bool.noConfusion h1
  · rcases h2 with h2 | h2
    · exact Or.inl h2
    · right
      cases hb : e.body with
      | error err => rw [hb] at h2; exact Bool.noConfusion h2
      | ok buf =>
        rw [hb] at h2
        simp only at h2
        cases hu : codec.unmarshalIndex buf with
        | ok idx => simp [parseIndex, hu, isOk]
        | error err => rw [hu] at h2; exact Bool.noConfusion h2

/-- C7: for a container that decompresses, whose archive ends with `io.EOF`,
and whose `index-meta.plist` and `index.plist` payloads are read and decode,
`ParseRepodata` returns an error exactly when no entry is named
`index.plist`, and the error is then the missing index one (whatever
`index-meta.plist` entries were read).  When there is such an entry, the
index returned is what the decoder makes of the payload of the last one, and
the metadata returned is `nil` when there is no `index-meta.plist` entry or
the payload of the last one is the dummy `DEADBEEF`, and otherwise what the
decoder makes of that payload; the place of the entries in the archive, and
which of the two comes first, play no part. -/
theorem ParseRepodata_error_iff (codec : Codec) (r : Archive)
    (hz : r.decompress = none) (hf : r.final = none)
    (hd : ∀ e ∈ r.entries, decodes codec e = true) :
    ((∃ err, ParseRepodata codec r = .error err)
        ↔ ∀ e ∈ r.entries, e.hdr.Name ≠ "index.plist".toList)
      ∧ ((∀ e ∈ r.entries, e.hdr.Name ≠ "index.plist".toList) →
          ParseRepodata codec r = .error .missingIndex)
      ∧ (∀ ie ibuf idx, lastNamed "index.plist".toList r.entries = some ie →
          ie.body = .ok ibuf → codec.unmarshalIndex ibuf = .ok idx →
          (lastNamed "index-meta.plist".toList r.entries = none →
              ParseRepodata codec r = .ok (none, idx))
            ∧ (∀ me, lastNamed "index-meta.plist".toList r.entries = some me →
                me.body = .ok "DEADBEEF".toList →
                ParseRepodata codec r = .ok (none, idx))
            ∧ (∀ me mbuf md, lastNamed "index-meta.plist".toList r.entries = some me →
                me.body = .ok mbuf → mbuf ≠ "DEADBEEF".toList →
                codec.unmarshalMeta mbuf = .ok md →
                ParseRepodata codec r = .ok (some md, idx))) := by
  obtain ⟨hnone, hsome⟩ := ParseRepodata_eq codec r hz hf
    (fun e he => parses_of_decodes codec e (hd e he))
  refine ⟨⟨?_, fun hno => ⟨_, hnone hno⟩⟩, hnone, ?_⟩
  · rintro ⟨err, herr⟩
    by_contra hex
    rw [← lastNamed_eq_none] at hex
    cases hl : lastNamed "index.plist".toList r.entries with
    | none => exact hex hl
    | some ie =>
      rw [hsome ie hl] at herr
      exact Except.noConfusion herr
  · intro ie ibuf idx hie hib hidx
    have hiv : indexVal codec ie = idx := by
      unfold indexVal parseIndex
      rw [hib]
      simp only [hidx]
    have hpr := hsome ie hie
    rw [hiv] at hpr
    refine ⟨?_, ?_, ?_⟩
    · intro hm
      rw [hpr]
      simp only [metaOf, hm]
    · intro me hm hmb
      rw [hpr]
      simp only [metaOf, hm, metaVal, parseMetaData, hmb, if_true]
    · intro me mbuf md hm hmb hne hmd
      rw [hpr]
      simp only [metaOf, hm, metaVal, parseMetaData, hmb, if_neg hne, hmd]

/-- C7 at a container that holds the index first and real metadata after it,
and at one that holds the dummy metadata and no index. -/
theorem ParseRepodata_error_iff_witness :
    ((∀ e ∈ exRepodataSigned.entries, decodes exCodec e = true)
      ∧ ParseRepodata exCodec exRepodataSigned
        = .ok (some ⟨"KEY".toList, 0, [], []⟩, [("foo".toList, exPackage)]))
      ∧ ((∀ e ∈ exRepodataNoIndex.entries, decodes exCodec e = true)
        ∧ ParseRepodata exCodec exRepodataNoIndex = .error .missingIndex) :=
  ⟨⟨by decide,
    ((ParseRepodata_error_iff exCodec exRepodataSigned rfl rfl (by decide)).2.2
      ⟨⟨"index.plist".toList, TypeReg, []⟩, .ok "I".toList⟩ "I".toList
      [("foo".toList, exPackage)] rfl rfl rfl).2.2
      ⟨⟨"index-meta.plist".toList, TypeReg, []⟩, .ok "KEY".toList⟩ "KEY".toList
      ⟨"KEY".toList, 0, [], []⟩ rfl rfl (by decide) rfl⟩,
   ⟨by decide,
    (ParseRepodata_error_iff exCodec exRepodataNoIndex rfl rfl (by decide)).2.1 (by decide)⟩⟩

/-! ## `main`: the new state -/

theorem indexLoop_eq (proc : GoString → Package → ProcOutcome) (current : State)
    (base : GoString) (pkgs : List Package) :
    ∀ (next : State) (calls : List Call),
      indexLoop proc current base pkgs next calls
        = callsLoop proc current (pkgs.map (fun p => ⟨base, p⟩)) next calls := by
  induction pkgs with
  | nil => intro next calls; rfl
  | cons p rest ih =>
    intro next calls
    simp only [indexLoop, List.map_cons, callsLoop]
    cases current p.Sha256 with
    | some v => exact ih _ _
    | none =>
      cases proc base p with
      | panicked => rfl
      | error e => exact ih _ _
      | ok files => exact ih _ _

theorem callsLoop_append (proc : GoString → Package → ProcOutcome) (current : State)
    (a b : List Call) :
    ∀ (next : State) (calls : List Call),
      callsLoop proc current (a ++ b) next calls
        = (callsLoop proc current a next calls).bind
            (fun r => callsLoop proc current b r.1 r.2) := by
  induction a with
  | nil => intro next calls; rfl
  | cons c rest ih =>
    intro next calls
    simp only [List.cons_append, callsLoop]
    cases current c.pkg.Sha256 with
    | some v => exact ih _ _
    | none =>
      cases proc c.base c.pkg with
      | panicked => rfl
      | error e => exact ih _ _
      | ok files => exact ih _ _

theorem argsLoop_eq (w : World) (proc : GoString → Package → ProcOutcome) (current : State)
    (args : List GoString) :
    ∀ (next : State) (calls : List Call),
      argsLoop w proc current args next calls
        = if allParse w args then callsLoop proc current (suppliedCalls w args) next calls
          else none := by
  induction args with
  | nil => intro next calls; rfl
  | cons index rest ih =>
    intro next calls
    have hA : allParse w (index :: rest)
        = ((match w.openFile index with
            | .error _ => false
            | .ok findex => isOk (ParseRepodata w.codec findex)) && allParse w rest) := rfl
    have hS : suppliedCalls w (index :: rest)
        = (match w.openFile index with
            | .error _ => []
            | .ok findex =>
              match ParseRepodata w.codec findex with
              | .error _ => []
              | .ok (_, rindex) => rindex.map (fun kv => (⟨Dir index, kv.2⟩ : Call)))
          ++ suppliedCalls w rest := by
      unfold suppliedCalls
      rw [List.flatMap_cons]
    rw [argsLoop, hA, hS]
    cases hopen : w.openFile index with
    | error e => simp
    | ok findex =>
      simp only []
      cases hparse : ParseRepodata w.codec findex with
      | error e => simp [isOk]
      | ok mr =>
        obtain ⟨m, rindex⟩ := mr
        simp only [isOk, Bool.true_and]
        rw [indexLoop_eq, List.map_map, callsLoop_append]
        have hcomp : ((fun p => (⟨Dir index, p⟩ : Call)) ∘ Prod.snd)
            = (fun kv : GoString × Package => (⟨Dir index, kv.2⟩ : Call)) := rfl
        rw [hcomp]
        cases hcl : callsLoop proc current
            (List.map (fun kv : GoString × Package => (⟨Dir index, kv.2⟩ : Call)) rindex)
            next calls with
        | none => simp
        | some r =>
          obtain ⟨n1, c1⟩ := r
          simp only [Option.bind_some]
          rw [ih n1 c1]
          rfl

theorem callsLoop_calls (proc : GoString → Package → ProcOutcome) (current : State)
    (cs : List Call) :
    ∀ (next : State) (calls : List Call) (n2 : State) (c2 : List Call),
      callsLoop proc current cs next calls = some (n2, c2) →
      c2 = calls ++ cs.filter (fun c => (current c.pkg.Sha256).isNone) := by
  induction cs with
  | nil =>
    intro next calls n2 c2 h
    simp only [callsLoop, Option.some.injEq, Prod.mk.injEq] at h
    simp [h.2]
  | cons c rest ih =>
    intro next calls n2 c2 h
    unfold callsLoop at h
    cases hc : current c.pkg.Sha256 with
    | some v =>
      simp only [hc] at h
      rw [ih _ _ _ _ h]
      simp [hc]
    | none =>
      simp only [hc] at h
      cases hp : proc c.base c.pkg with
      | panicked => simp [hp] at h
      | error e =>
        simp only [hp] at h
        rw [ih _ _ _ _ h]
        simp [hc]
      | ok files =>
        simp only [hp] at h
        rw [ih _ _ _ _ h]
        simp [hc]

theorem callsLoop_keys (proc : GoString → Package → ProcOutcome) (current : State)
    (cs : List Call) :
    ∀ (next : State) (calls : List Call) (n2 : State) (c2 : List Call),
      callsLoop proc current cs next calls = some (n2, c2) →
      ∀ k, n2 k ≠ none → next k ≠ none ∨ ∃ c ∈ cs, c.pkg.Sha256 = k := by
  induction cs with
  | nil =>
    intro next calls n2 c2 h k hk
    simp only [callsLoop, Option.some.injEq, Prod.mk.injEq] at h
    exact Or.inl (h.1 ▸ hk)
  | cons c rest ih =>
    intro next calls n2 c2 h k hk
    have hset : ∀ v : List GoString, (next.set c.pkg.Sha256 v k ≠ none ∨
        ∃ x ∈ rest, x.pkg.Sha256 = k) → next k ≠ none ∨ ∃ x ∈ c :: rest, x.pkg.Sha256 = k := by
      intro v hv
      rcases hv with hv | ⟨x, hx, hxk⟩
      · by_cases hkc : k = c.pkg.Sha256
        · exact Or.inr ⟨c, List.mem_cons_self _ _, hkc.symm⟩
        · left
          simpa [State.set, hkc] using hv
      · exact Or.inr ⟨x, List.mem_cons_of_mem _ hx, hxk⟩
    unfold callsLoop at h
    cases hc : current c.pkg.Sha256 with
    | some v =>
      simp only [hc] at h
      exact hset v (ih _ _ _ _ h k hk)
    | none =>
      simp only [hc] at h
      cases hp : proc c.base c.pkg with
      | panicked => simp [hp] at h
      | error e =>
        simp only [hp] at h
        rcases ih _ _ _ _ h k hk with h1 | ⟨x, hx, hxk⟩
        · exact Or.inl h1
        · exact Or.inr ⟨x, List.mem_cons_of_mem _ hx, hxk⟩
      | ok files =>
        simp only [hp] at h
        exact hset files (ih _ _ _ _ h k hk)

theorem main_eq (w : World) (outdir : GoString) (current : State) (args : List GoString) :
    main w outdir current args
      = if allParse w args then
          callsLoop (fun base pkg => (process w outdir base pkg).1) current
            (suppliedCalls w args) emptyState []
        else none :=
  argsLoop_eq w _ current args emptyState []

/-- C8: every key of the state that `main` hands to `writeState` is the
content hash of a package descriptor of a supplied index; so a hash of the
prior state that is in no supplied index is not a key of the new state. -/
theorem new_state_keys (w : World) (outdir : GoString) (current : State)
    (args : List GoString) (next : State) (calls : List Call)
    (h : main w outdir current args = some (next, calls)) :
    (∀ k, next k ≠ none → ∃ c ∈ suppliedCalls w args, c.pkg.Sha256 = k)
      ∧ (∀ k, current k ≠ none → (∀ c ∈ suppliedCalls w args, c.pkg.Sha256 ≠ k) →
          next k = none) := by
  rw [main_eq] at h
  have hcl : callsLoop (fun base pkg => (process w outdir base pkg).1) current
      (suppliedCalls w args) emptyState [] = some (next, calls) := by
    by_cases hp : allParse w args = true
    · rwa [if_pos hp] at h
    · rw [if_neg hp] at h
      exact Option.noConfusion h
  have hkeys : ∀ k, next k ≠ none → ∃ c ∈ suppliedCalls w args, c.pkg.Sha256 = k := by
    intro k hk
    rcases callsLoop_keys _ _ _ _ _ _ _ hcl k hk with h1 | h2
    · exact absurd rfl h1
    · exact h2
  refine ⟨hkeys, ?_⟩
  intro k _ hno
  by_contra hk
  obtain ⟨c, hc, hck⟩ := hkeys k hk
  exact hno c hc hck

/-- C8 at a run from the empty state over one index with one package. -/
theorem new_state_keys_witness :
    main exWorld "out".toList emptyState ["repo/x86_64-repodata".toList]
        = some (emptyState.set "abc123".toList ["/usr/share/man/man1/foo.1".toList],
                [⟨"repo".toList, exPackage⟩])
      ∧ ∀ k, emptyState.set "abc123".toList ["/usr/share/man/man1/foo.1".toList] k ≠ none →
          ∃ c ∈ suppliedCalls exWorld ["repo/x86_64-repodata".toList], c.pkg.Sha256 = k :=
  ⟨rfl,
   (new_state_keys exWorld "out".toList emptyState ["repo/x86_64-repodata".toList]
      (emptyState.set "abc123".toList ["/usr/share/man/man1/foo.1".toList])
      [⟨"repo".toList, exPackage⟩] rfl).1⟩

/-! ## `main`: a second run -/

theorem State.set_ne_none (s : State) (k : GoString) (v : List GoString) (x : GoString)
    (h : s x ≠ none) : s.set k v x ≠ none := by
  unfold State.set
  split
  · exact Option.some_ne_none v
  · exact h

theorem callsLoop_mono (proc : GoString → Package → ProcOutcome) (current : State)
    (cs : List Call) :
    ∀ (next : State) (calls : List Call) (n2 : State) (c2 : List Call),
      callsLoop proc current cs next calls = some (n2, c2) →
      ∀ k, next k ≠ none → n2 k ≠ none := by
  induction cs with
  | nil =>
    intro next calls n2 c2 h k hk
    simp only [callsLoop, Option.some.injEq, Prod.mk.injEq] at h
    exact h.1 ▸ hk
  | cons c rest ih =>
    intro next calls n2 c2 h k hk
    unfold callsLoop at h
    cases hc : current c.pkg.Sha256 with
    | some v =>
      simp only [hc] at h
      exact ih _ _ _ _ h k (State.set_ne_none _ _ _ _ hk)
    | none =>
      simp only [hc] at h
      cases hp : proc c.base c.pkg with
      | panicked => simp [hp] at h
      | error e =>
        simp only [hp] at h
        exact ih _ _ _ _ h k hk
      | ok files =>
        simp only [hp] at h
        exact ih _ _ _ _ h k (State.set_ne_none _ _ _ _ hk)

theorem callsLoop_hit (proc : GoString → Package → ProcOutcome) (current : State)
    (cs : List Call) :
    ∀ (next : State) (calls : List Call) (n2 : State) (c2 : List Call),
      callsLoop proc current cs next calls = some (n2, c2) →
      ∀ k v, current k = some v → (next k = some v ∨ ∃ c ∈ cs, c.pkg.Sha256 = k) →
        n2 k = some v := by
  induction cs with
  | nil =>
    intro next calls n2 c2 h k v _ hk
    simp only [callsLoop, Option.some.injEq, Prod.mk.injEq] at h
    rcases hk with hk | ⟨c, hc, _⟩
    · exact h.1 ▸ hk
    · exact absurd hc (List.not_mem_nil c)
  | cons c rest ih =>
    intro next calls n2 c2 h k v hcur hk
    unfold callsLoop at h
    by_cases hck : c.pkg.Sha256 = k
    · rw [hck, hcur] at h
      simp only at h
      exact ih _ _ _ _ h k v hcur (Or.inl (by simp [State.set]))
    · have hk2 : ∀ x : List GoString, (next.set c.pkg.Sha256 x k = some v)
          ∨ ∃ y ∈ rest, y.pkg.Sha256 = k := by
        intro x
        rcases hk with hk | ⟨y, hy, hyk⟩
        · left
          have : k ≠ c.pkg.Sha256 := fun e => hck e.symm
          simpa [State.set, this] using hk
        · rcases List.mem_cons.1 hy with rfl | hy
          · exact absurd hyk hck
          · exact Or.inr ⟨y, hy, hyk⟩
      have hk3 : next k = some v ∨ ∃ y ∈ rest, y.pkg.Sha256 = k := by
        rcases hk with hk | ⟨y, hy, hyk⟩
        · exact Or.inl hk
        · rcases List.mem_cons.1 hy with rfl | hy
          · exact absurd hyk hck
          · exact Or.inr ⟨y, hy, hyk⟩
      cases hc : current c.pkg.Sha256 with
      | some x =>
        simp only [hc] at h
        exact ih _ _ _ _ h k v hcur (hk2 x)
      | none =>
        simp only [hc] at h
        cases hp : proc c.base c.pkg with
        | panicked => simp [hp] at h
        | error e =>
          simp only [hp] at h
          exact ih _ _ _ _ h k v hcur hk3
        | ok files =>
          simp only [hp] at h
          exact ih _ _ _ _ h k v hcur (hk2 files)

theorem callsLoop_miss (proc : GoString → Package → ProcOutcome) (current : State)
    (cs : List Call) :
    ∀ (next : State) (calls : List Call) (n2 : State) (c2 : List Call),
      callsLoop proc current cs next calls = some (n2, c2) →
      ∀ c ∈ cs, current c.pkg.Sha256 = none →
        (∃ e, proc c.base c.pkg = .error e) ∨ n2 c.pkg.Sha256 ≠ none := by
  induction cs with
  | nil => intro next calls n2 c2 _ c hc; exact absurd hc (List.not_mem_nil c)
  | cons d rest ih =>
    intro next calls n2 c2 h c hc hcur
    unfold callsLoop at h
    rcases List.mem_cons.1 hc with rfl | hc
    · rw [hcur] at h
      simp only at h
      cases hp : proc c.base c.pkg with
      | panicked => simp [hp] at h
      | error e => exact Or.inl ⟨e, rfl⟩
      | ok files =>
        simp only [hp] at h
        right
        exact callsLoop_mono _ _ _ _ _ _ _ h _ (by simp [State.set])
    · cases hd : current d.pkg.Sha256 with
      | some x =>
        simp only [hd] at h
        exact ih _ _ _ _ h c hc hcur
      | none =>
        simp only [hd] at h
        cases hp : proc d.base d.pkg with
        | panicked => simp [hp] at h
        | error e =>
          simp only [hp] at h
          exact ih _ _ _ _ h c hc hcur
        | ok files =>
          simp only [hp] at h
          exact ih _ _ _ _ h c hc hcur

theorem callsLoop_rerun (proc : GoString → Package → ProcOutcome) (cur : State)
    (cs : List Call)
    (hfail : ∀ c ∈ cs, cur c.pkg.Sha256 = none → ∃ e, proc c.base c.pkg = .error e) :
    ∀ (n : State) (calls : List Call),
      ∃ n2, callsLoop proc cur cs n calls
          = some (n2, calls ++ cs.filter (fun c => (cur c.pkg.Sha256).isNone))
        ∧ ∀ k, ((∃ c ∈ cs, c.pkg.Sha256 = k ∧ cur k ≠ none) → n2 k = cur k)
            ∧ ((¬ ∃ c ∈ cs, c.pkg.Sha256 = k ∧ cur k ≠ none) → n2 k = n k) := by
  induction cs with
  | nil =>
    intro n calls
    exact ⟨n, by simp [callsLoop], fun k => ⟨by simp, fun _ => rfl⟩⟩
  | cons c rest ih =>
    intro n calls
    have hfail2 : ∀ x ∈ rest, cur x.pkg.Sha256 = none → ∃ e, proc x.base x.pkg = .error e :=
      fun x hx => hfail x (List.mem_cons_of_mem _ hx)
    cases hc : cur c.pkg.Sha256 with
    | some v =>
      obtain ⟨n2, hrun, hn2⟩ := ih hfail2 (n.set c.pkg.Sha256 v) calls
      refine ⟨n2, ?_, ?_⟩
      · rw [callsLoop]
        simp only [hc]
        rw [hrun]
        simp [hc]
      · intro k
        by_cases hr : ∃ x ∈ rest, x.pkg.Sha256 = k ∧ cur k ≠ none
        · have h1 := (hn2 k).1 hr
          obtain ⟨x, hx, hxk⟩ := hr
          exact ⟨fun _ => h1, fun hno => absurd ⟨x, List.mem_cons_of_mem _ hx, hxk⟩ hno⟩
        · have h1 := (hn2 k).2 hr
          by_cases hck : c.pkg.Sha256 = k
          · refine ⟨fun _ => ?_, fun hno => ?_⟩
            · rw [h1, ← hck, hc]
              simp [State.set]
            · exfalso
              apply hno
              refine ⟨c, List.mem_cons_self _ _, hck, ?_⟩
              rw [← hck, hc]
              exact Option.some_ne_none v
          · have hkc : k ≠ c.pkg.Sha256 := fun e => hck e.symm
            refine ⟨fun hex => ?_, fun _ => ?_⟩
            · obtain ⟨x, hx, hxk⟩ := hex
              rcases List.mem_cons.1 hx with rfl | hx
              · exact absurd hxk.1 hck
              · exact absurd ⟨x, hx, hxk⟩ hr
            · rw [h1]
              simp [State.set, hkc]
    | none =>
      obtain ⟨e, he⟩ := hfail c (List.mem_cons_self _ _) hc
      obtain ⟨n2, hrun, hn2⟩ := ih hfail2 n (calls ++ [c])
      refine ⟨n2, ?_, ?_⟩
      · rw [callsLoop]
        simp only [hc, he]
        rw [hrun]
        simp [hc]
      · intro k
        have hiff : (∃ x ∈ c :: rest, x.pkg.Sha256 = k ∧ cur k ≠ none)
            ↔ ∃ x ∈ rest, x.pkg.Sha256 = k ∧ cur k ≠ none := by
          constructor
          · rintro ⟨x, hx, hxk⟩
            rcases List.mem_cons.1 hx with rfl | hx
            · exact absurd (hxk.1 ▸ hc) hxk.2
            · exact ⟨x, hx, hxk⟩
          · rintro ⟨x, hx, hxk⟩
            exact ⟨x, List.mem_cons_of_mem _ hx, hxk⟩
        rw [hiff]
        exact hn2 k

/-- C9, as the code has it: a second run with the state the first run saved
and the same indices saves the same state again; it calls `process` for the
packages of the first run whose hash is not a key of the saved state, and
for these `process` had returned an error in the first run; when no call of
the first run returned an error, the second run calls `process` for no
package. -/
theorem second_run (w : World) (outdir : GoString) (current : State)
    (args : List GoString) (next : State) (calls : List Call)
    (h : main w outdir current args = some (next, calls)) :
    main w outdir next args
        = some (next, calls.filter (fun c => (next c.pkg.Sha256).isNone))
      ∧ (∀ c ∈ calls, (next c.pkg.Sha256).isNone = true →
          ∃ e, (process w outdir c.base c.pkg).1 = .error e)
      ∧ ((∀ c ∈ calls, ∀ e, (process w outdir c.base c.pkg).1 ≠ .error e) →
          main w outdir next args = some (next, [])) := by
  have hparse : allParse w args = true := by
    by_contra hp
    rw [main_eq, if_neg hp] at h
    exact Option.noConfusion h
  rw [main_eq, if_pos hparse] at h
  have hcalls := callsLoop_calls _ _ _ _ _ _ _ h
  rw [List.nil_append] at hcalls
  have hkeys := callsLoop_keys _ _ _ _ _ _ _ h
  -- a candidate whose hash is not a key of the saved state was called and failed
  have hfail : ∀ c ∈ suppliedCalls w args, next c.pkg.Sha256 = none →
      current c.pkg.Sha256 = none ∧ ∃ e, (process w outdir c.base c.pkg).1 = .error e := by
    intro c hc hn
    have hcur : current c.pkg.Sha256 = none := by
      cases hv : current c.pkg.Sha256 with
      | none => rfl
      | some v =>
        have := callsLoop_hit _ _ _ _ _ _ _ h _ v hv (Or.inr ⟨c, hc, rfl⟩)
        rw [hn] at this
        exact Option.noConfusion this
    refine ⟨hcur, ?_⟩
    rcases callsLoop_miss _ _ _ _ _ _ _ h c hc hcur with he | hne
    · exact he
    · exact absurd hn hne
  obtain ⟨n2, hrun, hn2⟩ := callsLoop_rerun (fun base pkg => (process w outdir base pkg).1)
    next (suppliedCalls w args) (fun c hc hn => (hfail c hc hn).2) emptyState []
  have hstate : n2 = next := by
    funext k
    by_cases hex : ∃ c ∈ suppliedCalls w args, c.pkg.Sha256 = k ∧ next k ≠ none
    · exact (hn2 k).1 hex
    · rw [(hn2 k).2 hex]
      by_contra hk
      have hk2 : next k ≠ none := fun e => hk (by rw [e]; rfl)
      rcases hkeys k hk2 with h1 | ⟨c, hc, hck⟩
      · exact h1 rfl
      · exact hex ⟨c, hc, hck, hk2⟩
  have hfilter : (suppliedCalls w args).filter (fun c => (next c.pkg.Sha256).isNone)
      = calls.filter (fun c => (next c.pkg.Sha256).isNone) := by
    rw [hcalls, List.filter_filter]
    apply List.filter_congr
    intro c hc
    cases hn : next c.pkg.Sha256 with
    | some v => simp
    | none => simp [(hfail c hc hn).1]
  have hmain : main w outdir next args
      = some (next, calls.filter (fun c => (next c.pkg.Sha256).isNone)) := by
    rw [main_eq, if_pos hparse, hrun, hstate, List.nil_append, hfilter]
  have hcall_fail : ∀ c ∈ calls, (next c.pkg.Sha256).isNone = true →
      ∃ e, (process w outdir c.base c.pkg).1 = .error e := by
    intro c hc hn
    rw [hcalls] at hc
    exact (hfail c (List.mem_filter.1 hc).1 (by simpa using hn)).2
  refine ⟨hmain, hcall_fail, ?_⟩
  intro hok
  rw [hmain]
  congr 2
  rw [List.filter_eq_nil_iff]
  intro c hc hn
  obtain ⟨e, he⟩ := hcall_fail c hc hn
  exact hok c hc e he

/-- C9 at a run in which the one package is processed without error: the
second run calls `process` for no package. -/
theorem second_run_witness :
    main exWorld "out".toList emptyState ["repo/x86_64-repodata".toList]
        = some (emptyState.set "abc123".toList ["/usr/share/man/man1/foo.1".toList],
                [⟨"repo".toList, exPackage⟩])
      ∧ main exWorld "out".toList
          (emptyState.set "abc123".toList ["/usr/share/man/man1/foo.1".toList])
          ["repo/x86_64-repodata".toList]
        = some (emptyState.set "abc123".toList ["/usr/share/man/man1/foo.1".toList], []) :=
  ⟨rfl,
   (second_run exWorld "out".toList emptyState ["repo/x86_64-repodata".toList]
      (emptyState.set "abc123".toList ["/usr/share/man/man1/foo.1".toList])
      [⟨"repo".toList, exPackage⟩] rfl).2.2
      (by
        intro c hc e
        rw [List.mem_singleton] at hc
        subst hc
        have h1 : (process exWorld "out".toList "repo".toList exPackage).1
            = .ok ["/usr/share/man/man1/foo.1".toList] := by decide
        rw [h1]
        exact fun h => ProcOutcome.noConfusion h)⟩

/-- C9 as stated fails: the package archive is missing, the first run from
the empty state calls `process` for the package and saves the empty state,
and the second run, from that saved state and the same index, calls
`process` for the package again. -/
theorem second_run_calls_process_again :
    main exWorldNoPackage "out".toList emptyState ["repo/x86_64-repodata".toList]
        = some (emptyState, [⟨"repo".toList, exPackage⟩])
      ∧ (main exWorldNoPackage "out".toList emptyState ["repo/x86_64-repodata".toList]).map
          (fun r => r.2.length) = some 1 :=
  ⟨rfl, rfl⟩

/-! ## `filepath.Clean`: the loop -/

theorem cleanLoop_nil (rooted : Bool) (fuel : Nat) (out : GoString) (dd : Nat) :
    cleanLoop rooted fuel [] out dd = out := by
  cases fuel <;> rfl

theorem dropWhile_length_le (c : Char) (tl : GoString) (n : Nat)
    (h : (c :: tl).length ≤ n + 1) (hc : ¬ c = '/') :
    ((c :: tl).dropWhile (fun b => b != '/')).length ≤ n := by
  have h1 : (c :: tl).dropWhile (fun b => b != '/') = tl.dropWhile (fun b => b != '/') := by
    rw [List.dropWhile_cons_of_pos]
    simpa using hc
  rw [h1]
  have h2 := (List.dropWhile_sublist (fun b => b != '/') (l := tl)).length_le
  simp only [List.length_cons] at h
  omega

theorem cleanLoop_fuel (rooted : Bool) :
    ∀ (fuel : Nat) (rest : GoString), rest.length ≤ fuel →
      ∀ fuel2, rest.length ≤ fuel2 → ∀ (out : GoString) (dd : Nat),
        cleanLoop rooted fuel rest out dd = cleanLoop rooted fuel2 rest out dd := by
  intro fuel
  induction fuel with
  | zero =>
    intro rest hle fuel2 _ out dd
    have : rest = [] := List.length_eq_zero.1 (Nat.le_zero.1 hle)
    subst this
    rw [cleanLoop_nil, cleanLoop_nil]
  | succ n ih =>
    intro rest hle fuel2 hle2 out dd
    cases rest with
    | nil => rw [cleanLoop_nil, cleanLoop_nil]
    | cons c tl =>
      cases fuel2 with
      | zero => simp at hle2
      | succ m =>
        have htl : tl.length ≤ n := by simpa using hle
        have htl2 : tl.length ≤ m := by simpa using hle2
        have htt : tl.tail.length ≤ n := by rw [List.length_tail]; omega
        have htt2 : tl.tail.length ≤ m := by rw [List.length_tail]; omega
        simp only [cleanLoop]
        split_ifs <;>
          first
          | exact ih _ htl _ htl2 _ _
          | exact ih _ htt _ htt2 _ _
          | exact ih _ (dropWhile_length_le c tl n hle (by assumption)) _
              (dropWhile_length_le c tl m hle2 (by assumption)) _ _

theorem cleanLoop_eq_run (rooted : Bool) (fuel : Nat) (rest out : GoString) (dd : Nat)
    (h : rest.length ≤ fuel) : cleanLoop rooted fuel rest out dd = cleanRun rooted rest out dd :=
  cleanLoop_fuel rooted fuel rest h _ (Nat.le_refl _) out dd

theorem cleanRun_nil (rooted : Bool) (out : GoString) (dd : Nat) :
    cleanRun rooted [] out dd = out := rfl

theorem cleanRun_sep (rooted : Bool) (tl out : GoString) (dd : Nat) :
    cleanRun rooted ('/' :: tl) out dd = cleanRun rooted tl out dd := by
  unfold cleanRun
  simp only [List.length_cons, cleanLoop, if_true]

theorem cleanRun_dot (rooted : Bool) (tl out : GoString) (dd : Nat) (h : atEnd tl) :
    cleanRun rooted ('.' :: tl) out dd = cleanRun rooted tl out dd := by
  have h1 : ¬ ('.' = '/') := by decide
  unfold cleanRun
  unfold atEnd at h
  simp only [List.length_cons, cleanLoop, if_neg h1, true_and, if_pos h]

theorem cleanRun_dotdot (rooted : Bool) (tl out : GoString) (dd : Nat) (h : atEnd tl) :
    cleanRun rooted ('.' :: '.' :: tl) out dd
      = if dd < out.length then cleanRun rooted tl (backtrack out dd) dd
        else if !rooted then
          cleanRun rooted tl ((if 0 < out.length then out ++ ['/'] else out) ++ ['.', '.'])
            ((if 0 < out.length then out ++ ['/'] else out) ++ ['.', '.']).length
        else cleanRun rooted tl out dd := by
  have h1 : ¬ ('.' = '/') := by decide
  have h2 : ¬ ('.' = '.' ∧ (('.' :: tl) = [] ∨ ('.' :: tl).head? = some '/')) := by simp
  have h3 : '.' = '.' ∧ ('.' :: tl).head? = some '.'
      ∧ ((('.' :: tl).tail = []) ∨ ('.' :: tl).tail.head? = some '/') :=
    ⟨rfl, rfl, h⟩
  have hlen : tl.length ≤ tl.length + 1 := Nat.le_succ _
  unfold cleanRun
  simp only [List.length_cons]
  rw [cleanLoop, if_neg h1, if_neg h2, if_pos h3]
  simp only [List.tail_cons]
  split_ifs <;> exact cleanLoop_eq_run _ _ _ _ _ hlen

theorem cleanRun_elem (rooted : Bool) (c : Char) (tl out : GoString) (dd : Nat)
    (h1 : c ≠ '/') (h2 : ¬ (c = '.' ∧ atEnd tl))
    (h3 : ¬ (c = '.' ∧ tl.head? = some '.' ∧ atEnd tl.tail)) :
    cleanRun rooted (c :: tl) out dd
      = cleanRun rooted (tl.dropWhile (fun b => b != '/'))
          ((if (rooted && out.length != 1) || (!rooted && out.length != 0) then out ++ ['/']
            else out) ++ c :: tl.takeWhile (fun b => b != '/')) dd := by
  have hd : (c :: tl).dropWhile (fun b => b != '/') = tl.dropWhile (fun b => b != '/') := by
    rw [List.dropWhile_cons_of_pos]
    simpa using h1
  have ht : (c :: tl).takeWhile (fun b => b != '/') = c :: tl.takeWhile (fun b => b != '/') := by
    rw [List.takeWhile_cons_of_pos]
    simpa using h1
  have hlen : (tl.dropWhile (fun b => b != '/')).length ≤ tl.length :=
    (List.dropWhile_sublist _).length_le
  unfold atEnd at h2 h3
  unfold cleanRun
  simp only [List.length_cons]
  rw [cleanLoop, if_neg h1, if_neg h2, if_neg h3, hd, ht]
  exact cleanLoop_eq_run _ _ _ _ _ hlen

/-- The five shapes of what is left of the path at the head of the loop. -/
theorem clean_cases (P : GoString → Prop) (rest : GoString)
    (hnil : P [])
    (hsep : ∀ tl, P ('/' :: tl))
    (hdot : ∀ tl, atEnd tl → P ('.' :: tl))
    (hdd : ∀ tl, atEnd tl → P ('.' :: '.' :: tl))
    (helem : ∀ c tl, c ≠ '/' → ¬ (c = '.' ∧ atEnd tl) →
      ¬ (c = '.' ∧ tl.head? = some '.' ∧ atEnd tl.tail) → P (c :: tl)) :
    P rest := by
  cases rest with
  | nil => exact hnil
  | cons c tl =>
    by_cases h1 : c = '/'
    · subst h1; exact hsep tl
    · by_cases h2 : c = '.' ∧ atEnd tl
      · obtain ⟨rfl, h2⟩ := h2
        exact hdot tl h2
      · by_cases h3 : c = '.' ∧ tl.head? = some '.' ∧ atEnd tl.tail
        · obtain ⟨rfl, h3, h4⟩ := h3
          cases tl with
          | nil => simp at h3
          | cons d tl2 =>
            simp only [List.head?_cons, Option.some.injEq] at h3
            subst h3
            exact hdd tl2 h4
        · exact helem c tl h1 h2 h3

theorem atEnd_append (tl r : GoString) : atEnd (tl ++ '/' :: r) ↔ atEnd tl := by
  unfold atEnd
  cases tl with
  | nil => simp
  | cons x xs => simp

theorem head?_append_sep (tl r : GoString) (h : (tl ++ '/' :: r).head? = some '.') :
    tl.head? = some '.' ∧ (tl ++ '/' :: r).tail = tl.tail ++ '/' :: r := by
  cases tl with
  | nil => simp at h
  | cons x xs => exact ⟨by simpa using h, rfl⟩

theorem takeWhile_append_sep (tl r : GoString) :
    (tl ++ '/' :: r).takeWhile (fun b => b != '/') = tl.takeWhile (fun b => b != '/') := by
  induction tl with
  | nil => simp
  | cons x xs ih =>
    by_cases hx : x = '/'
    · subst hx; simp
    · have hp : (fun b : Char => b != '/') x = true := by simpa using hx
      rw [List.cons_append, List.takeWhile_cons_of_pos (p := fun b => b != '/') hp,
        List.takeWhile_cons_of_pos (p := fun b => b != '/') hp, ih]

theorem dropWhile_append_sep (tl r : GoString) :
    (tl ++ '/' :: r).dropWhile (fun b => b != '/')
      = tl.dropWhile (fun b => b != '/') ++ '/' :: r := by
  induction tl with
  | nil => simp
  | cons x xs ih =>
    by_cases hx : x = '/'
    · subst hx; simp
    · have hp : (fun b : Char => b != '/') x = true := by simpa using hx
      rw [List.cons_append, List.dropWhile_cons_of_pos (p := fun b => b != '/') hp,
        List.dropWhile_cons_of_pos (p := fun b => b != '/') hp, ih]

/-- The loop on `d/r` first does what it does on `d`. -/
theorem cleanRun_append (rooted : Bool) (r : GoString) :
    ∀ (n : Nat) (d : GoString), d.length ≤ n → ∀ (out : GoString) (dd : Nat),
      ∃ dd2, cleanRun rooted (d ++ '/' :: r) out dd
        = cleanRun rooted ('/' :: r) (cleanRun rooted d out dd) dd2 := by
  intro n
  induction n with
  | zero =>
    intro d hd out dd
    have : d = [] := List.length_eq_zero.1 (Nat.le_zero.1 hd)
    subst this
    exact ⟨dd, rfl⟩
  | succ n ih =>
    intro d
    refine clean_cases (fun d => d.length ≤ n + 1 → ∀ (out : GoString) (dd : Nat),
      ∃ dd2, cleanRun rooted (d ++ '/' :: r) out dd
        = cleanRun rooted ('/' :: r) (cleanRun rooted d out dd) dd2) d ?_ ?_ ?_ ?_ ?_
    · intro _ out dd
      exact ⟨dd, rfl⟩
    · intro tl hlen out dd
      rw [List.cons_append, cleanRun_sep, cleanRun_sep]
      exact ih tl (by simpa using hlen) out dd
    · intro tl hend hlen out dd
      rw [List.cons_append, cleanRun_dot _ _ _ _ ((atEnd_append tl r).2 hend),
        cleanRun_dot _ _ _ _ hend]
      exact ih tl (by simpa using hlen) out dd
    · intro tl hend hlen out dd
      have hl : tl.length ≤ n := by
        simp only [List.length_cons] at hlen
        omega
      rw [List.cons_append, List.cons_append,
        cleanRun_dotdot _ _ _ _ ((atEnd_append tl r).2 hend), cleanRun_dotdot _ _ _ _ hend]
      split_ifs <;> exact ih tl hl _ _
    · intro c tl h1 h2 h3 hlen out dd
      have h2b : ¬ (c = '.' ∧ atEnd (tl ++ '/' :: r)) :=
        fun h => h2 ⟨h.1, (atEnd_append tl r).1 h.2⟩
      have h3b : ¬ (c = '.' ∧ (tl ++ '/' :: r).head? = some '.'
          ∧ atEnd (tl ++ '/' :: r).tail) := by
        rintro ⟨hc, hh, he⟩
        obtain ⟨hh1, hh2⟩ := head?_append_sep tl r hh
        rw [hh2] at he
        exact h3 ⟨hc, hh1, (atEnd_append _ r).1 he⟩
      have hl : (tl.dropWhile (fun b => b != '/')).length ≤ n := by
        have := (List.dropWhile_sublist (fun b => b != '/') (l := tl)).length_le
        simp only [List.length_cons] at hlen
        omega
      rw [List.cons_append, cleanRun_elem _ _ _ _ _ h1 h2b h3b, cleanRun_elem _ _ _ _ _ h1 h2 h3,
        takeWhile_append_sep, dropWhile_append_sep]
      exact ih _ hl _ _

theorem elements_nil : elements [] = [[]] := rfl

theorem elements_sep (tl : GoString) : elements ('/' :: tl) = [] :: elements tl := by
  unfold elements List.splitOn
  rw [List.splitOnP_cons]
  simp

theorem elements_cons (tl : GoString) :
    ∀ c : Char, c ≠ '/' →
      ∃ t, elements (c :: tl) = (c :: tl.takeWhile (fun b => b != '/')) :: t
        ∧ elements (tl.dropWhile (fun b => b != '/')) = [] :: t := by
  induction tl with
  | nil =>
    intro c hc
    refine ⟨[], ?_, rfl⟩
    unfold elements List.splitOn
    rw [List.splitOnP_cons]
    simp [hc]
  | cons x xs ih =>
    intro c hc
    have hstep : elements (c :: x :: xs) = (elements (x :: xs)).modifyHead (List.cons c) := by
      unfold elements List.splitOn
      rw [List.splitOnP_cons]
      simp [hc]
    by_cases hx : x = '/'
    · subst hx
      refine ⟨elements xs, ?_, ?_⟩
      · rw [hstep, elements_sep]
        simp
      · simp [elements_sep]
    · obtain ⟨t, h1, h2⟩ := ih x hx
      have hp : (fun b : Char => b != '/') x = true := by simpa using hx
      refine ⟨t, ?_, ?_⟩
      · rw [hstep, h1, List.takeWhile_cons_of_pos (p := fun b => b != '/') hp]
        rfl
      · rw [List.dropWhile_cons_of_pos (p := fun b => b != '/') hp]
        exact h2

theorem takeWhile_of_atEnd (tl : GoString) (h : atEnd tl) :
    tl.takeWhile (fun b => b != '/') = [] ∧ tl.dropWhile (fun b => b != '/') = tl := by
  rcases h with rfl | h
  · exact ⟨rfl, rfl⟩
  · cases tl with
    | nil => exact ⟨rfl, rfl⟩
    | cons x xs =>
      simp only [List.head?_cons, Option.some.injEq] at h
      subst h
      simp

theorem atEnd_of_takeWhile (tl : GoString) (h : tl.takeWhile (fun b => b != '/') = []) :
    atEnd tl := by
  cases tl with
  | nil => exact Or.inl rfl
  | cons x xs =>
    right
    by_cases hx : x = '/'
    · simp [hx]
    · have hp : (fun b : Char => b != '/') x = true := by simpa using hx
      rw [List.takeWhile_cons_of_pos (p := fun b => b != '/') hp] at h
      exact absurd h (List.cons_ne_nil _ _)

/-- On a path without a `..` element the loop of `Clean` only appends: the
names of the path, each after a separator where one is needed. -/
theorem cleanRun_names (rooted : Bool) :
    ∀ (n : Nat) (r : GoString), r.length ≤ n → noDotDot r = true →
      ∀ (out : GoString) (dd : Nat),
        cleanRun rooted r out dd = appendNames rooted out (names r) := by
  intro n
  induction n with
  | zero =>
    intro r hr _ out dd
    have : r = [] := List.length_eq_zero.1 (Nat.le_zero.1 hr)
    subst this
    rfl
  | succ n ih =>
    intro r
    refine clean_cases (fun r => r.length ≤ n + 1 → noDotDot r = true →
      ∀ (out : GoString) (dd : Nat),
        cleanRun rooted r out dd = appendNames rooted out (names r)) r ?_ ?_ ?_ ?_ ?_
    · intro _ _ out dd
      rfl
    · intro tl hlen hnd out dd
      have hnd2 : noDotDot tl = true := by
        unfold noDotDot at hnd ⊢
        rw [elements_sep] at hnd
        simpa using hnd
      rw [cleanRun_sep, ih tl (by simpa using hlen) hnd2]
      unfold names
      rw [elements_sep]
      rfl
    · intro tl hend hlen hnd out dd
      obtain ⟨t, h1, h2⟩ := elements_cons tl '.' (by decide)
      obtain ⟨ht, hd⟩ := takeWhile_of_atEnd tl hend
      rw [ht] at h1
      rw [hd] at h2
      have hnd2 : noDotDot tl = true := by
        unfold noDotDot at hnd ⊢
        rw [h1] at hnd
        rw [h2]
        simpa using hnd
      rw [cleanRun_dot _ _ _ _ hend, ih tl (by simpa using hlen) hnd2]
      unfold names
      rw [h1, h2]
      rfl
    · intro tl hend hlen hnd out dd
      exfalso
      obtain ⟨t, h1, _⟩ := elements_cons ('.' :: tl) '.' (by decide)
      have hp : (fun b : Char => b != '/') '.' = true := by decide
      rw [List.takeWhile_cons_of_pos (p := fun b => b != '/') hp,
        (takeWhile_of_atEnd tl hend).1] at h1
      unfold noDotDot at hnd
      rw [h1] at hnd
      simp at hnd
    · intro c tl hc h2 h3 hlen hnd out dd
      obtain ⟨t, e1, e2⟩ := elements_cons tl c hc
      have hl : (tl.dropWhile (fun b => b != '/')).length ≤ n := by
        have := (List.dropWhile_sublist (fun b => b != '/') (l := tl)).length_le
        simp only [List.length_cons] at hlen
        omega
      have hnd2 : noDotDot (tl.dropWhile (fun b => b != '/')) = true := by
        unfold noDotDot at hnd ⊢
        rw [e1] at hnd
        rw [e2]
        simp only [List.contains_cons, Bool.not_eq_true', Bool.or_eq_false_iff] at hnd ⊢
        exact ⟨by decide, hnd.2⟩
      have hreal : ((c :: tl.takeWhile (fun b => b != '/')) != []
          && (c :: tl.takeWhile (fun b => b != '/')) != ['.']) = true := by
        simp only [Bool.and_eq_true, bne_iff_ne, ne_eq, List.cons_ne_nil, not_false_eq_true,
          true_and, List.cons.injEq, not_and]
        intro hcd htw
        exact h2 ⟨hcd, atEnd_of_takeWhile tl htw⟩
      rw [cleanRun_elem _ _ _ _ _ hc h2 h3, ih _ hl hnd2]
      unfold names
      rw [e1, e2, List.filter_cons_of_pos (p := fun e => e != [] && e != ['.']) hreal]
      rfl

theorem backtrackLoop_spec (out : GoString) (dd : Nat) :
    ∀ w0, dd ≤ w0 →
      dd ≤ backtrackLoop out dd w0 ∧ backtrackLoop out dd w0 ≤ w0
        ∧ (backtrackLoop out dd w0 = dd ∨ out.get? (backtrackLoop out dd w0) = some '/') := by
  intro w0
  induction w0 with
  | zero =>
    intro h
    have : dd = 0 := Nat.le_zero.1 h
    subst this
    exact ⟨Nat.le_refl _, Nat.le_refl _, Or.inl rfl⟩
  | succ k ih =>
    intro h
    rw [backtrackLoop]
    by_cases hc : dd < k + 1 ∧ out.get? (k + 1) ≠ some '/'
    · rw [if_pos hc]
      obtain ⟨h1, h2, h3⟩ := ih (Nat.lt_succ_iff.1 hc.1)
      exact ⟨h1, Nat.le_succ_of_le h2, h3⟩
    · rw [if_neg hc]
      refine ⟨h, Nat.le_refl _, ?_⟩
      by_cases hlt : dd < k + 1
      · right
        by_contra hne
        exact hc ⟨hlt, hne⟩
      · left
        omega

theorem atEnd_take (rest : GoString) (k : Nat) (h : atEnd rest) : atEnd (rest.take k) := by
  rcases h with rfl | h
  · left; simp
  · cases rest with
    | nil => left; simp
    | cons x xs =>
      cases k with
      | zero => left; rfl
      | succ k => right; simpa using h

theorem atEnd_append_sep (rest tail2 : GoString) (h : atEnd rest) :
    atEnd (rest ++ '/' :: tail2) := by
  rcases h with rfl | h
  · right; rfl
  · cases rest with
    | nil => right; rfl
    | cons x xs => right; simpa using h

theorem cleanInv_backtrack (rooted : Bool) (out : GoString) (dd : Nat)
    (hinv : CleanInv rooted out dd) (hlt : dd < out.length) :
    CleanInv rooted (backtrack out dd) dd := by
  obtain ⟨h1, h2, h3⟩ := backtrackLoop_spec out dd (out.length - 1) (by omega)
  have hwlen : backtrackLoop out dd (out.length - 1) ≤ out.length := by omega
  unfold backtrack
  refine ⟨by rw [List.length_take]; omega, ?_⟩
  cases rooted with
  | true =>
    have hr := hinv.2
    simp only [if_true] at hr ⊢
    refine ⟨?_, hr.2⟩
    cases out with
    | nil => simp at hlt
    | cons x xs =>
      have hpos : 0 < backtrackLoop (x :: xs) dd ((x :: xs).length - 1) := by omega
      obtain ⟨k, hk⟩ := Nat.exists_eq_succ_of_ne_zero (Nat.pos_iff_ne_zero.1 hpos)
      rw [hk]
      simpa using hr.1
  | false =>
    have hr := hinv.2
    simp only [Bool.false_eq_true, if_false] at hr ⊢
    rcases hr with rfl | ⟨e, rest, rfl, he, hsep, hdot, hrest, hdd⟩
    · simp at hlt
    · have hcases : backtrackLoop (e ++ rest) dd ((e ++ rest).length - 1) = 0
          ∨ e.length ≤ backtrackLoop (e ++ rest) dd ((e ++ rest).length - 1) := by
        rcases h3 with h3 | h3
        · rcases hdd with hdd | hdd
          · left; omega
          · right; omega
        · right
          by_contra hlt2
          have hlt3 : backtrackLoop (e ++ rest) dd ((e ++ rest).length - 1) < e.length := by
            omega
          rw [List.get?_eq_getElem?, List.getElem?_append_left hlt3] at h3
          exact hsep (List.getElem?_mem h3)
      rcases hcases with h0 | hle
      · left
        rw [h0]
        rfl
      · right
        refine ⟨e, rest.take (backtrackLoop (e ++ rest) dd ((e ++ rest).length - 1) - e.length),
          ?_, he, hsep, hdot, atEnd_take _ _ hrest, ?_⟩
        · rw [List.take_append_eq_append_take, List.take_of_length_le hle]
        · rcases hdd with hdd | hdd
          · exact Or.inl hdd
          · exact Or.inr hdd

theorem cleanInv_dotdot (out : GoString) (dd : Nat) (hinv : CleanInv false out dd) :
    CleanInv false ((if 0 < out.length then out ++ ['/'] else out) ++ ['.', '.'])
      ((if 0 < out.length then out ++ ['/'] else out) ++ ['.', '.']).length := by
  refine ⟨Nat.le_refl _, ?_⟩
  have hr := hinv.2
  simp only [Bool.false_eq_true, if_false] at hr ⊢
  right
  rcases hr with rfl | ⟨e, rest, rfl, he, hsep, hdot, hrest, _⟩
  · refine ⟨['.', '.'], [], by simp, by simp, by decide, by decide, Or.inl rfl, Or.inr ?_⟩
    simp
  · have hpos : 0 < (e ++ rest).length := by
      rw [List.length_append]
      have := List.length_pos.2 he
      omega
    rw [if_pos hpos]
    refine ⟨e, rest ++ '/' :: ['.', '.'], by simp, he, hsep, hdot,
      atEnd_append_sep _ _ hrest, Or.inr ?_⟩
    simp only [List.length_append]
    omega

theorem takeWhile_no_sep (tl : GoString) : '/' ∉ tl.takeWhile (fun b => b != '/') := by
  intro h
  have := List.mem_takeWhile_imp h
  simp at this

theorem cleanInv_elem (rooted : Bool) (c : Char) (tl out : GoString) (dd : Nat)
    (hinv : CleanInv rooted out dd) (hc : c ≠ '/') (h2 : ¬ (c = '.' ∧ atEnd tl)) :
    CleanInv rooted
      ((if (rooted && out.length != 1) || (!rooted && out.length != 0) then out ++ ['/']
        else out) ++ c :: tl.takeWhile (fun b => b != '/')) dd := by
  have hlen : dd ≤ ((if (rooted && out.length != 1) || (!rooted && out.length != 0)
      then out ++ ['/'] else out) ++ c :: tl.takeWhile (fun b => b != '/')).length := by
    have := hinv.1
    split_ifs <;> simp only [List.length_append, List.length_cons] <;> omega
  refine ⟨hlen, ?_⟩
  cases rooted with
  | true =>
    have hr := hinv.2
    simp only [if_true] at hr ⊢
    refine ⟨?_, hr.2⟩
    cases out with
    | nil => simp at hr
    | cons x xs =>
      have hx := hr.1
      split_ifs <;> simpa using hx
  | false =>
    have hr := hinv.2
    simp only [Bool.false_eq_true, if_false] at hr ⊢
    right
    rcases hr with rfl | ⟨e, rest, rfl, he, hsep, hdot, hrest, hdd⟩
    · have hd0 : dd = 0 := by
        have := hinv.1
        simpa using this
      refine ⟨c :: tl.takeWhile (fun b => b != '/'), [], by simp, by simp, ?_, ?_,
        Or.inl rfl, Or.inl hd0⟩
      · intro hmem
        rcases List.mem_cons.1 hmem with h | h
        · exact hc h.symm
        · exact takeWhile_no_sep tl h
      · intro heq
        simp only [List.cons.injEq] at heq
        exact h2 ⟨heq.1, atEnd_of_takeWhile tl heq.2⟩
    · have hne : ((e ++ rest).length != 0) = true := by
        have := List.length_pos.2 he
        simp only [List.length_append, bne_iff_ne, ne_eq]
        omega
      simp only [Bool.false_and, Bool.not_false, Bool.true_and, Bool.false_or, hne, if_true]
      refine ⟨e, rest ++ '/' :: (c :: tl.takeWhile (fun b => b != '/')), by simp, he, hsep,
        hdot, atEnd_append_sep _ _ hrest, hdd⟩

/-- The invariant of the loop of `Clean` holds of what the loop returns. -/
theorem cleanInv_run (rooted : Bool) :
    ∀ (n : Nat) (r : GoString), r.length ≤ n → ∀ (out : GoString) (dd : Nat),
      CleanInv rooted out dd → ∃ dd2, CleanInv rooted (cleanRun rooted r out dd) dd2 := by
  intro n
  induction n with
  | zero =>
    intro r hr out dd hinv
    have : r = [] := List.length_eq_zero.1 (Nat.le_zero.1 hr)
    subst this
    exact ⟨dd, hinv⟩
  | succ n ih =>
    intro r
    refine clean_cases (fun r => r.length ≤ n + 1 → ∀ (out : GoString) (dd : Nat),
      CleanInv rooted out dd → ∃ dd2, CleanInv rooted (cleanRun rooted r out dd) dd2)
      r ?_ ?_ ?_ ?_ ?_
    · intro _ out dd hinv
      exact ⟨dd, hinv⟩
    · intro tl hlen out dd hinv
      rw [cleanRun_sep]
      exact ih tl (by simpa using hlen) out dd hinv
    · intro tl hend hlen out dd hinv
      rw [cleanRun_dot _ _ _ _ hend]
      exact ih tl (by simpa using hlen) out dd hinv
    · intro tl hend hlen out dd hinv
      have hl : tl.length ≤ n := by
        simp only [List.length_cons] at hlen
        omega
      rw [cleanRun_dotdot _ _ _ _ hend]
      by_cases hlt : dd < out.length
      · rw [if_pos hlt]
        exact ih tl hl _ _ (cleanInv_backtrack rooted out dd hinv hlt)
      · rw [if_neg hlt]
        cases rooted with
        | true => exact ih tl hl _ _ hinv
        | false => exact ih tl hl _ _ (cleanInv_dotdot out dd hinv)
    · intro c tl hc h2 h3 hlen out dd hinv
      have hl : (tl.dropWhile (fun b => b != '/')).length ≤ n := by
        have := (List.dropWhile_sublist (fun b => b != '/') (l := tl)).length_le
        simp only [List.length_cons] at hlen
        omega
      rw [cleanRun_elem _ _ _ _ _ hc h2 h3]
      exact ih _ hl _ _ (cleanInv_elem rooted c tl out dd hinv hc h2)

theorem elements_no_sep :
    ∀ (n : Nat) (s : GoString), s.length ≤ n → ∀ e ∈ elements s, '/' ∉ e := by
  intro n
  induction n with
  | zero =>
    intro s hs e he
    have : s = [] := List.length_eq_zero.1 (Nat.le_zero.1 hs)
    subst this
    rw [elements_nil, List.mem_singleton] at he
    subst he
    simp
  | succ n ih =>
    intro s hs e he
    cases s with
    | nil =>
      rw [elements_nil, List.mem_singleton] at he
      subst he
      simp
    | cons c tl =>
      by_cases hc : c = '/'
      · subst hc
        rw [elements_sep] at he
        rcases List.mem_cons.1 he with rfl | he
        · simp
        · exact ih tl (by simpa using hs) e he
      · obtain ⟨t, e1, e2⟩ := elements_cons tl c hc
        rw [e1] at he
        rcases List.mem_cons.1 he with rfl | he
        · intro hmem
          rcases List.mem_cons.1 hmem with h | h
          · exact hc h.symm
          · exact takeWhile_no_sep tl h
        · have hl : (tl.dropWhile (fun b => b != '/')).length ≤ n := by
            have := (List.dropWhile_sublist (fun b => b != '/') (l := tl)).length_le
            simp only [List.length_cons] at hs
            omega
          exact ih _ hl e (by rw [e2]; exact List.mem_cons_of_mem _ he)

theorem names_isName (r : GoString) (hnd : noDotDot r = true) :
    ∀ e ∈ names r, isName e = true := by
  intro e he
  unfold names at he
  rw [List.mem_filter] at he
  obtain ⟨hmem, hreal⟩ := he
  have hsep := elements_no_sep r.length r (Nat.le_refl _) e hmem
  unfold noDotDot at hnd
  have hdd : e ≠ ['.', '.'] := by
    rintro rfl
    simp only [Bool.not_eq_true', List.contains_eq_any_beq, List.any_eq_false] at hnd
    exact hnd _ hmem (by simp)
  unfold isName
  simp only [Bool.and_eq_true, bne_iff_ne, ne_eq] at hreal ⊢
  refine ⟨⟨⟨hreal.1, hreal.2⟩, hdd⟩, ?_⟩
  simpa using hsep

theorem length_le_appendNames (rooted : Bool) (es : List GoString) :
    ∀ out : GoString, out.length ≤ (appendNames rooted out es).length := by
  induction es with
  | nil => intro out; exact Nat.le_refl _
  | cons e es ih =>
    intro out
    rw [appendNames]
    refine Nat.le_trans ?_ (ih _)
    split_ifs <;> simp only [List.length_append, List.length_cons, List.length_nil] <;> omega

theorem appendNames_eq_descend (rooted : Bool) (es : List GoString) :
    ∀ out : GoString, out ≠ [] → out ≠ ['.'] → out ≠ ['/'] →
      (rooted = true → out.length ≠ 1) →
      appendNames rooted out es = descend out es := by
  induction es with
  | nil => intro out _ _ _ _; rfl
  | cons e es ih =>
    intro out h0 h1 h2 h3
    have hneed : ((rooted && out.length != 1) || (!rooted && out.length != 0)) = true := by
      cases rooted with
      | true => simpa using h3 rfl
      | false => simpa using h0
    have hlen : 2 ≤ (out ++ '/' :: e).length := by
      have := List.length_pos.2 h0
      simp only [List.length_append, List.length_cons]
      omega
    rw [appendNames, descend, if_pos hneed, if_neg h1, if_neg h2]
    have heq : out ++ ['/'] ++ e = out ++ '/' :: e := by simp
    rw [heq]
    apply ih
    · intro h; rw [h] at hlen; simp at hlen
    · intro h; rw [h] at hlen; simp at hlen
    · intro h; rw [h] at hlen; simp at hlen
    · intro _ h; omega

theorem appendNames_rooted (B : GoString) (es : List GoString) (hB : B.head? = some '/')
    (hes : ∀ e ∈ es, e ≠ []) : appendNames true B es = descend B es := by
  cases es with
  | nil => rfl
  | cons e es =>
    by_cases h1 : B = ['/']
    · subst h1
      have he : e ≠ [] := hes e (List.mem_cons_self _ _)
      have hlen : 2 ≤ ('/' :: e).length := by
        have := List.length_pos.2 he
        simp only [List.length_cons]
        omega
      rw [appendNames, descend]
      have hs : (if ((true && (['/'].length != 1)) || (!true && (['/'].length != 0))) = true
          then ['/'] ++ ['/'] else ['/']) ++ e = '/' :: e := by
        simp
      have hd : (if ['/'] = ['.'] then e else if ['/'] = ['/'] then ['/'] ++ e
          else ['/'] ++ '/' :: e) = '/' :: e := by
        simp
      rw [hs, hd]
      apply appendNames_eq_descend
      · simp
      · intro h; rw [h] at hlen; simp at hlen
      · intro h; rw [h] at hlen; simp at hlen
      · intro _ h; omega
    · cases B with
      | nil => simp at hB
      | cons x xs =>
        simp only [List.head?_cons, Option.some.injEq] at hB
        subst hB
        have hxs : xs ≠ [] := by
          intro h
          exact h1 (by rw [h])
        have hlen : 2 ≤ ('/' :: xs).length := by
          have := List.length_pos.2 hxs
          simp only [List.length_cons]
          omega
        apply appendNames_eq_descend
        · simp
        · intro h; rw [h] at hlen; simp at hlen
        · exact h1
        · intro _ h; omega

theorem appendNames_unrooted (B : GoString) (es : List GoString) (dd : Nat)
    (hB : CleanInv false B dd) (hes : ∀ e ∈ es, isName e = true) :
    (if (appendNames false B es).length = 0 then ['.'] else appendNames false B es)
      = descend (if B.length = 0 then ['.'] else B) es := by
  have hname : ∀ e : GoString, isName e = true → e ≠ [] ∧ e ≠ ['.'] ∧ e ≠ ['/'] := by
    intro e he
    unfold isName at he
    simp only [Bool.and_eq_true, bne_iff_ne, ne_eq, Bool.not_eq_true'] at he
    refine ⟨he.1.1.1, he.1.1.2, ?_⟩
    rintro rfl
    simp at he
  have hnz : ∀ out : GoString, out ≠ [] →
      (if (appendNames false out es).length = 0 then ['.'] else appendNames false out es)
        = appendNames false out es := by
    intro out hout
    have h1 := length_le_appendNames false es out
    have h2 := List.length_pos.2 hout
    rw [if_neg (by omega)]
  have hr := hB.2
  simp only [Bool.false_eq_true, if_false] at hr
  rcases hr with rfl | ⟨e, rest, rfl, he, hsep, hdot, hrest, _⟩
  · cases es with
    | nil => rfl
    | cons e es =>
      obtain ⟨h0, h1, h2⟩ := hname e (hes e (List.mem_cons_self _ _))
      have hlen := length_le_appendNames false es e
      have hpos := List.length_pos.2 h0
      have hstep : appendNames false [] (e :: es) = appendNames false e es := by
        rw [appendNames]
        simp
      have hd : descend (if ([] : GoString).length = 0 then ['.'] else []) (e :: es)
          = descend e es := by
        rw [descend]
        simp
      rw [hstep, hd, if_neg (by omega)]
      exact appendNames_eq_descend false es e h0 h1 h2 (fun h => Bool.noConfusion h)
  · have hne : e ++ rest ≠ [] := by simp [he]
    have hlen : (e ++ rest).length ≠ 0 := by
      have := List.length_pos.2 hne
      omega
    rw [hnz _ hne, if_neg hlen]
    apply appendNames_eq_descend
    · exact hne
    · intro h
      cases e with
      | nil => exact he rfl
      | cons x xs =>
        simp only [List.cons_append, List.cons.injEq, List.append_eq_nil] at h
        exact hdot (by rw [h.1, h.2.1])
    · intro h
      cases e with
      | nil => exact he rfl
      | cons x xs =>
        simp only [List.cons_append, List.cons.injEq, List.append_eq_nil] at h
        exact hsep (by rw [h.1]; exact List.mem_cons_self _ _)
    · intro h
      exact Bool.noConfusion h

/-- Cleaning `d/r`, with `d` not empty and no `..` element in `r`, gives the
cleaned `d` followed by the names of `r`. -/
theorem Clean_append_names (d r : GoString) (hd : d ≠ []) (hnd : noDotDot r = true) :
    Clean (d ++ '/' :: r) = descend (Clean d) (names r) := by
  have hnames := names_isName r hnd
  cases d with
  | nil => exact absurd rfl hd
  | cons x d2 =>
    have hpath : (x :: d2) ++ '/' :: r ≠ [] := by simp
    by_cases hx : x = '/'
    · subst hx
      have hB : ∃ dd2, CleanInv true (cleanRun true d2 ['/'] 1) dd2 :=
        cleanInv_run true d2.length d2 (Nat.le_refl _) ['/'] 1 ⟨Nat.le_refl _, rfl, Nat.le_refl _⟩
      obtain ⟨dd2, hinv⟩ := hB
      have hhead : (cleanRun true d2 ['/'] 1).head? = some '/' := hinv.2.1
      have hBne : (cleanRun true d2 ['/'] 1).length ≠ 0 := by
        intro h
        rw [List.length_eq_zero.1 h] at hhead
        simp at hhead
      have hd1 : Clean ('/' :: d2) = cleanRun true d2 ['/'] 1 := by
        unfold Clean
        rw [if_neg (List.cons_ne_nil _ _)]
        simp only [List.head?_cons, beq_self_eq_true, if_true, List.tail_cons]
        rw [cleanLoop_eq_run _ _ _ _ _ (by simp), if_neg hBne]
      obtain ⟨dd3, happ⟩ := cleanRun_append true r d2.length d2 (Nat.le_refl _) ['/'] 1
      have hrun : cleanRun true (d2 ++ '/' :: r) ['/'] 1
          = appendNames true (cleanRun true d2 ['/'] 1) (names r) := by
        rw [happ, cleanRun_sep, cleanRun_names true r.length r (Nat.le_refl _) hnd]
      have hlen := length_le_appendNames true (names r) (cleanRun true d2 ['/'] 1)
      have hd2 : Clean (('/' :: d2) ++ '/' :: r)
          = appendNames true (cleanRun true d2 ['/'] 1) (names r) := by
        unfold Clean
        rw [if_neg hpath]
        simp only [List.cons_append, List.head?_cons, beq_self_eq_true, if_true, List.tail_cons]
        rw [cleanLoop_eq_run _ _ _ _ _ (by simp), hrun, if_neg (by omega)]
      rw [hd1, hd2]
      apply appendNames_rooted _ _ hhead
      intro e he
      have := hnames e he
      unfold isName at this
      simp only [Bool.and_eq_true, bne_iff_ne, ne_eq] at this
      exact this.1.1.1
    · have hbeq : (some x == some '/') = false := by simpa using hx
      obtain ⟨dd2, hinv⟩ := cleanInv_run false (x :: d2).length (x :: d2) (Nat.le_refl _) [] 0
        ⟨Nat.le_refl _, Or.inl rfl⟩
      have hd1 : Clean (x :: d2)
          = if (cleanRun false (x :: d2) [] 0).length = 0 then ['.']
            else cleanRun false (x :: d2) [] 0 := by
        unfold Clean
        rw [if_neg (List.cons_ne_nil _ _)]
        simp only [List.head?_cons, hbeq, Bool.false_eq_true, if_false]
        rfl
      obtain ⟨dd3, happ⟩ := cleanRun_append false r (x :: d2).length (x :: d2) (Nat.le_refl _) [] 0
      have hrun : cleanRun false ((x :: d2) ++ '/' :: r) [] 0
          = appendNames false (cleanRun false (x :: d2) [] 0) (names r) := by
        rw [happ, cleanRun_sep, cleanRun_names false r.length r (Nat.le_refl _) hnd]
      have hd2 : Clean ((x :: d2) ++ '/' :: r)
          = if (appendNames false (cleanRun false (x :: d2) [] 0) (names r)).length = 0
            then ['.']
            else appendNames false (cleanRun false (x :: d2) [] 0) (names r) := by
        unfold Clean
        rw [if_neg hpath]
        simp only [List.cons_append, List.head?_cons, hbeq, Bool.false_eq_true, if_false]
        rw [← hrun]
        rfl
      rw [hd1, hd2]
      exact appendNames_unrooted _ _ dd2 hinv hnames

/-- Where the guard on hard links does confine the target: for an output
directory that is not the empty string and an entry of type hard link that
`extract` accepts (the stored target starts with `./usr/share/man/`), when the
rest of the target has no `..` element, the target path handed to `os.Link`
lies inside the output directory: it is the cleaned output directory followed
by names. -/
theorem hardlink_target_inside (outdir : GoString) (hdr : Header) (s : GoString)
    (hty : hdr.Typeflag = TypeLink)
    (hs : sliceFrom hdr.Name (pfx.length + 1) = some s)
    (hout : outdir ≠ [])
    (hacc : HasPrefix hdr.Linkname "./usr/share/man/".toList = true)
    (hnd : noDotDot (hdr.Linkname.drop "./usr/share/man/".toList.length) = true) :
    ∃ target,
      extractEntry outdir hdr
          = some [Action.EnsureDir (Dir (Join outdir s)), Action.Printf (Join outdir s),
                  Action.Link target (Join outdir s)]
        ∧ Inside outdir target := by
  have hp : "./usr/share/man/".toList = '.' :: pfx := by decide
  have hl : "./usr/share/man/".toList.length = pfx.length + 1 := by decide
  rw [hp] at hacc
  rw [hl] at hnd
  refine ⟨Join outdir (hdr.Linkname.drop (pfx.length + 1)),
    extractEntry_link_ok outdir hdr s hty hs hacc, names (hdr.Linkname.drop (pfx.length + 1)),
    names_isName _ hnd, ?_⟩
  unfold Join
  rw [if_pos hout]
  exact Clean_append_names outdir _ hout hnd

/-- The hard link target of another man page lies inside the output directory. -/
theorem hardlink_target_inside_witness :
    ∃ target,
      extractEntry "out".toList
          ⟨"./usr/share/man/man1/b.1".toList, TypeLink, "./usr/share/man/man1/a.1".toList⟩
          = some [Action.EnsureDir (Dir (Join "out".toList "man1/b.1".toList)),
                  Action.Printf (Join "out".toList "man1/b.1".toList),
                  Action.Link target (Join "out".toList "man1/b.1".toList)]
        ∧ Inside "out".toList target :=
  hardlink_target_inside "out".toList
    ⟨"./usr/share/man/man1/b.1".toList, TypeLink, "./usr/share/man/man1/a.1".toList⟩
    "man1/b.1".toList (by decide) (by decide) (by decide) (by decide) (by decide)

theorem descend_isPrefix (es : List GoString) :
    ∀ d : GoString, d ≠ ['.'] → d <+: descend d es := by
  induction es with
  | nil => intro d _; exact List.prefix_refl d
  | cons e es ih =>
    intro d hd
    rw [descend, if_neg hd]
    by_cases h1 : d = ['/']
    · rw [if_pos h1]
      refine List.IsPrefix.trans (List.prefix_append d e) (ih _ ?_)
      rw [h1]
      simp
    · rw [if_neg h1]
      refine List.IsPrefix.trans (List.prefix_append d ('/' :: e)) (ih _ ?_)
      cases d with
      | nil => simp
      | cons x xs =>
        intro h
        simp only [List.cons_append, List.cons.injEq, List.append_eq_nil] at h
        exact absurd h.2.2 (List.cons_ne_nil _ _)

/-- C4 fails: the stored target `./usr/share/man/../../../etc/passwd` starts
with `./usr/share/man/`, so the hard link entry is accepted, and the target
path handed to `os.Link` for the output directory `out` is
`../../etc/passwd`, which is not inside `out`. -/
theorem hardlink_target_escapes :
    extract "out".toList
        ⟨[⟨"./usr/share/man/man1/x.1".toList, TypeLink,
            "./usr/share/man/../../../etc/passwd".toList⟩], none⟩
        ["/usr/share/man/man1/x.1".toList]
      = ⟨Outcome.returned none, [],
         [Action.EnsureDir "out/man1".toList, Action.Printf "out/man1/x.1".toList,
          Action.Link "../../etc/passwd".toList "out/man1/x.1".toList]⟩
      ∧ ¬ Inside "out".toList "../../etc/passwd".toList := by
  refine ⟨by decide, ?_⟩
  rintro ⟨es, _, hes⟩
  have hc : Clean "out".toList = "out".toList := by decide
  have hpre := descend_isPrefix es (Clean "out".toList) (by rw [hc]; decide)
  rw [← hes, hc] at hpre
  exact absurd hpre (by decide)

/-- A second way out of the output directory, without a `..` element: for
the output directory given as the empty string, the accepted stored target
`./usr/share/man//etc/passwd` gives the target path `/etc/passwd`. -/
theorem hardlink_target_escapes_empty_outdir :
    extractEntry []
        ⟨"./usr/share/man/man1/x.1".toList, TypeLink, "./usr/share/man//etc/passwd".toList⟩
      = some [Action.EnsureDir "man1".toList, Action.Printf "man1/x.1".toList,
              Action.Link "/etc/passwd".toList "man1/x.1".toList]
      ∧ noDotDot "/etc/passwd".toList = true
      ∧ ¬ Inside [] "/etc/passwd".toList := by
  refine ⟨by decide, by decide, ?_⟩
  rintro ⟨es, hnames, hes⟩
  have hc : Clean [] = ['.'] := by decide
  rw [hc] at hes
  cases es with
  | nil => exact absurd hes (by decide)
  | cons e es =>
    have he := hnames e (List.mem_cons_self _ _)
    unfold isName at he
    simp only [Bool.and_eq_true, bne_iff_ne, ne_eq, Bool.not_eq_true'] at he
    rw [descend, if_pos rfl] at hes
    have hpre := descend_isPrefix es e he.1.1.2
    rw [← hes] at hpre
    cases e with
    | nil => exact he.1.1.1 rfl
    | cons x xs =>
      obtain ⟨t, ht⟩ := hpre
      have hx : x = '/' := by
        have := congrArg List.head? ht
        simpa using this
      rw [hx] at he
      simp at he

end Vmandump
